import Mathlib

/-!
Verification of `chapter-19/mcp_optimization_strategies.py`.

This file shallowly embeds the four components of the module —
`ContextAwareCache`, `CapabilityAwareLoadBalancer`, `RequestOrchestrator`
and `PerformanceMonitor` — as pure Lean definitions, and proves the
behavioural properties claimed for them.

Modelling conventions:
* Python dicts are association lists in insertion order
  (`List (String × _)`); reachable dicts have pairwise-distinct keys.
* Python floats are modelled as exact rationals (`ℚ`);
  `statistics.mean` computes `sum / length`.
* `json.dumps(context, sort_keys=True)` serialises the pairs after a
  stable sort by key under the code-point lexicographic string order;
  the sort is modelled with `List.insertionSort` (any stable sort
  produces the same list on distinct keys).
* Async code is sequentialised: `asyncio.gather` over a batch becomes
  `mapM` over the ready list, a raised exception becomes `Except.error`.
-/

namespace MCPOpt

/-- Code-point lexicographic `≤` on strings as lists of characters —
the order Python uses to compare `str` keys in `sorted`/`sort_keys`. -/
def strLeAux : List Char → List Char → Bool
  | [], _ => true
  | _ :: _, [] => false
  | a :: as, b :: bs => if a < b then true else if b < a then false else strLeAux as bs

/-- A Python context dict with string keys and integer values, in
insertion order. -/
abbrev Context := List (String × Int)

/-- Comparison of context entries by key, as used by `sort_keys=True`. -/
def keyLe (p q : String × Int) : Prop := strLeAux p.1.data q.1.data = true

instance : DecidableRel keyLe := fun p q =>
  inferInstanceAs (Decidable (strLeAux p.1.data q.1.data = true))

/-- Model of `json.dumps(context, sort_keys=True)`: serialise the pairs
sorted by key. -/
def dumpsSorted (ctx : Context) : String :=
  "\x7b" ++ String.intercalate ", "
    ((List.insertionSort keyLe ctx).map
      (fun p => "\"" ++ p.1 ++ "\": " ++ toString p.2)) ++ "\x7d"

/-- Model of `ContextAwareCache._make_key`: `f"{query}::{ctx_sig}"`. -/
def make_key (query : String) (context : Context) : String :=
  query ++ "::" ++ dumpsSorted context

/-- First binding of key `k` in an association list (Python `d[k]`). -/
def lookupAssoc {α : Type} (k : String) (s : List (String × α)) : Option α :=
  match s.find? (fun p => p.1 == k) with
  | some p => some p.2
  | none => none

/-- Python `d[k] = v`: overwrite the binding in place if the key exists,
otherwise append it. -/
def insertAssoc {α : Type} (k : String) (v : α) (s : List (String × α)) :
    List (String × α) :=
  if s.any (fun p => p.1 == k) then
    s.map (fun p => if p.1 == k then (k, v) else p)
  else s ++ [(k, v)]

/-- Python `del d[k]` (a no-op here when the key is absent). -/
def eraseKey {α : Type} (k : String) (s : List (String × α)) : List (String × α) :=
  s.filter (fun p => !(p.1 == k))

/-- State of `ContextAwareCache`. -/
structure ContextAwareCache (α : Type) where
  max_size : Nat
  store : List (String × α)
  access_order : List String
  hits : Nat
  misses : Nat

/-- The constructor `ContextAwareCache(max_size)`. -/
def ContextAwareCache.init (α : Type) (max_size : Nat) : ContextAwareCache α :=
  { max_size := max_size, store := [], access_order := [], hits := 0, misses := 0 }

/-- Model of `ContextAwareCache.get`: on a hit, bump the key to the
most-recently-used end of `_access_order` (`list.remove` drops the first
occurrence) and return the stored value; on a miss, count it and return
`None`. -/
def ContextAwareCache.get {α : Type} (c : ContextAwareCache α) (query : String)
    (context : Context) : ContextAwareCache α × Option α :=
  let key := make_key query context
  match lookupAssoc key c.store with
  | some v =>
      ({ c with hits := c.hits + 1,
                access_order := c.access_order.erase key ++ [key] }, some v)
  | none => ({ c with misses := c.misses + 1 }, none)

/-- Model of `ContextAwareCache.put`: if the store is full and the key is new,
pop the head of `_access_order` and delete that entry; then write the
binding, and append the key to `_access_order` only if it is not
already there.  `pop(0)` raises `IndexError` on an empty access list
(reachable with `max_size = 0`), modelled as `Except.error`. -/
def ContextAwareCache.put {α : Type} (c : ContextAwareCache α) (query : String)
    (context : Context) (v : α) : Except String (ContextAwareCache α) :=
  let key := make_key query context
  if c.store.length ≥ c.max_size ∧ ¬ (c.store.any (fun p => p.1 == key)) = true then
    match c.access_order with
    | [] => Except.error "IndexError: pop from empty list"
    | oldest :: rest =>
        Except.ok { c with
          store := insertAssoc key v (eraseKey oldest c.store),
          access_order := if rest.contains key then rest else rest ++ [key] }
  else
    Except.ok { c with
      store := insertAssoc key v c.store,
      access_order := if c.access_order.contains key then c.access_order
                      else c.access_order ++ [key] }

theorem strLeAux_total : ∀ x y : List Char,
    strLeAux x y = true ∨ strLeAux y x = true
  | [], _ => Or.inl rfl
  | _ :: _, [] => Or.inr rfl
  | a :: as, b :: bs => by
    rcases lt_trichotomy a b with h | h | h
    · left; simp [strLeAux, h]
    · subst h
      rcases strLeAux_total as bs with ih | ih
      · left; simp [strLeAux, ih]
      · right; simp [strLeAux, ih]
    · right; simp [strLeAux, h]

theorem strLeAux_trans : ∀ x y z : List Char,
    strLeAux x y = true → strLeAux y z = true → strLeAux x z = true
  | [], _, _, _, _ => rfl
  | _ :: _, [], _, hxy, _ => by simp [strLeAux] at hxy
  | _ :: _, _ :: _, [], _, hyz => by simp [strLeAux] at hyz
  | a :: as, b :: bs, c :: cs, hxy, hyz => by
    simp only [strLeAux] at hxy hyz ⊢
    rcases lt_trichotomy a b with hab | hab | hab
    · rcases lt_trichotomy b c with hbc | hbc | hbc
      · simp [lt_trans hab hbc]
      · subst hbc; simp [hab]
      · simp [if_neg (asymm hbc), if_pos hbc] at hyz
    · subst hab
      rcases lt_trichotomy a c with hac | hac | hac
      · simp [hac]
      · subst hac
        simp only [lt_irrefl, if_neg (lt_irrefl a), if_false] at hxy hyz ⊢
        exact strLeAux_trans as bs cs hxy hyz
      · simp [if_neg (asymm hac), if_pos hac] at hyz
    · simp [if_neg (asymm hab), if_pos hab] at hxy

theorem strLeAux_antisymm : ∀ x y : List Char,
    strLeAux x y = true → strLeAux y x = true → x = y
  | [], [], _, _ => rfl
  | [], _ :: _, _, hyx => by simp [strLeAux] at hyx
  | _ :: _, [], hxy, _ => by simp [strLeAux] at hxy
  | a :: as, b :: bs, hxy, hyx => by
    simp only [strLeAux] at hxy hyx
    rcases lt_trichotomy a b with hab | hab | hab
    · simp [if_neg (asymm hab), if_pos hab] at hyx
    · subst hab
      simp only [if_neg (lt_irrefl a), if_false] at hxy hyx
      exact congrArg (a :: ·) (strLeAux_antisymm as bs hxy hyx)
    · simp [if_neg (asymm hab), if_pos hab] at hxy

instance : IsTrans (String × Int) keyLe :=
  ⟨fun _ _ _ h h' => strLeAux_trans _ _ _ h h'⟩

instance : IsTotal (String × Int) keyLe :=
  ⟨fun _ _ => strLeAux_total _ _⟩

/-- The strict version of `keyLe`, used to show that sorting a context
with pairwise-distinct keys is canonical. -/
def keyLt (p q : String × Int) : Prop := keyLe p q ∧ p.1 ≠ q.1

instance : IsAntisymm (String × Int) keyLt :=
  ⟨fun _ _ hab hba =>
    absurd (String.ext (strLeAux_antisymm _ _ hab.1 hba.1)) hab.2⟩

/-- Sorting by key is canonical on contexts with distinct keys: any two
permutations sort to the same list. -/
theorem insertionSort_keyLe_eq_of_perm {c1 c2 : Context} (hperm : c1.Perm c2)
    (hnd : (c1.map Prod.fst).Nodup) :
    List.insertionSort keyLe c1 = List.insertionSort keyLe c2 := by
  have h1 : (List.insertionSort keyLe c1).Perm c1 := List.perm_insertionSort _ _
  have h2 : (List.insertionSort keyLe c2).Perm c2 := List.perm_insertionSort _ _
  have hp : (List.insertionSort keyLe c1).Perm (List.insertionSort keyLe c2) :=
    h1.trans (hperm.trans h2.symm)
  have hnd1 : ((List.insertionSort keyLe c1).map Prod.fst).Nodup :=
    ((h1.map Prod.fst).nodup_iff).2 hnd
  have hnd2 : ((List.insertionSort keyLe c2).map Prod.fst).Nodup :=
    ((h2.map Prod.fst).nodup_iff).2 (((hperm.map Prod.fst).nodup_iff).1 hnd)
  have hs1 : List.Sorted keyLt (List.insertionSort keyLe c1) :=
    ((List.sorted_insertionSort keyLe c1).and (List.pairwise_map.1 hnd1)).imp
      (fun h => h)
  have hs2 : List.Sorted keyLt (List.insertionSort keyLe c2) :=
    ((List.sorted_insertionSort keyLe c2).and (List.pairwise_map.1 hnd2)).imp
      (fun h => h)
  exact List.eq_of_perm_of_sorted hp hs1 hs2

theorem make_key_eq_of_perm (q : String) {c1 c2 : Context} (hperm : c1.Perm c2)
    (hnd : (c1.map Prod.fst).Nodup) : make_key q c1 = make_key q c2 := by
  unfold make_key dumpsSorted
  rw [insertionSort_keyLe_eq_of_perm hperm hnd]

theorem lookupAssoc_of_not_mem {α : Type} (k : String) :
    ∀ s : List (String × α), s.any (fun p => p.1 == k) = false →
      lookupAssoc k s = none
  | [], _ => rfl
  | p :: t, h => by
    simp only [List.any_cons, Bool.or_eq_false_iff] at h
    simp only [lookupAssoc, List.find?, h.1]
    exact lookupAssoc_of_not_mem k t h.2

theorem lookupAssoc_map_overwrite {α : Type} (k : String) (v : α) :
    ∀ t : List (String × α), t.any (fun p => p.1 == k) = true →
      lookupAssoc k (t.map (fun p => if p.1 == k then (k, v) else p)) = some v
  | p :: t, h => by
    by_cases hp : (p.1 == k) = true
    · simp [lookupAssoc, List.find?, hp]
    · have hp' : (p.1 == k) = false := eq_false_of_ne_true hp
      simp only [List.any_cons, hp', Bool.false_or] at h
      have := lookupAssoc_map_overwrite k v t h
      simp only [List.map_cons, hp', Bool.false_eq_true, if_false]
      simpa [lookupAssoc, List.find?, hp'] using this

theorem lookupAssoc_append_single {α : Type} (k : String) (v : α) :
    ∀ s : List (String × α), s.any (fun p => p.1 == k) = false →
      lookupAssoc k (s ++ [(k, v)]) = some v
  | [], _ => by simp [lookupAssoc, List.find?]
  | p :: t, h => by
    simp only [List.any_cons, Bool.or_eq_false_iff] at h
    have := lookupAssoc_append_single k v t h.2
    simp only [List.cons_append]
    simpa [lookupAssoc, List.find?, h.1] using this

theorem lookupAssoc_insertAssoc_self {α : Type} (k : String) (v : α)
    (s : List (String × α)) : lookupAssoc k (insertAssoc k v s) = some v := by
  unfold insertAssoc
  by_cases h : s.any (fun p => p.1 == k) = true
  · rw [if_pos h]
    exact lookupAssoc_map_overwrite k v s h
  · rw [if_neg h]
    exact lookupAssoc_append_single k v s (eq_false_of_ne_true h)

/-- C3: the cache key is an order-independent function of the context
mapping — two contexts equal as mappings yield the same key, and a
value stored under one is found under the other. -/
theorem C3_cache_key_order_independent {α : Type} (q : String) (c1 c2 : Context)
    (v : α) (cache : ContextAwareCache α)
    (hperm : c1.Perm c2) (hnd : (c1.map Prod.fst).Nodup) :
    make_key q c1 = make_key q c2 ∧
      ∀ c', cache.put q c1 v = Except.ok c' → (c'.get q c2).2 = some v := by
  have hk : make_key q c1 = make_key q c2 := make_key_eq_of_perm q hperm hnd
  refine ⟨hk, ?_⟩
  intro c' hok
  unfold ContextAwareCache.put at hok
  by_cases hcond : cache.store.length ≥ cache.max_size ∧
      ¬ (cache.store.any fun p => p.1 == make_key q c1) = true
  · rw [if_pos hcond] at hok
    cases hao : cache.access_order with
    | nil => rw [hao] at hok; exact absurd hok (by simp)
    | cons oldest rest =>
      rw [hao] at hok
      cases hok
      simp only [ContextAwareCache.get, ← hk, lookupAssoc_insertAssoc_self]
  · rw [if_neg hcond] at hok
    cases hok
    simp only [ContextAwareCache.get, ← hk, lookupAssoc_insertAssoc_self]

/-- Witness for C3 at the spec's example `{"a":1,"b":2}` vs
`{"b":2,"a":1}`. -/
theorem C3_witness :
    ([(("a" : String), (1 : Int)), ("b", 2)] : Context).Perm [("b", 2), ("a", 1)] ∧
      (([(("a" : String), (1 : Int)), ("b", 2)] : Context).map Prod.fst).Nodup ∧
      (({ max_size := 64,
          store := [(make_key "q" [("a", 1), ("b", 2)], 7)],
          access_order := [make_key "q" [("a", 1), ("b", 2)]],
          hits := 0, misses := 0 : ContextAwareCache Int }).get
          "q" [("b", 2), ("a", 1)]).2 = some 7 :=
  ⟨by decide, by decide,
    (C3_cache_key_order_independent "q" [("a", 1), ("b", 2)] [("b", 2), ("a", 1)] 7
        (ContextAwareCache.init Int 64) (by decide) (by decide)).2 _ rfl⟩

theorem beq_false_of_ne {a b : String} (h : a ≠ b) : (a == b) = false := by
  simpa using h

theorem any_key_eq_false_iff {α : Type} (k : String) (s : List (String × α)) :
    s.any (fun p => p.1 == k) = false ↔ k ∉ s.map Prod.fst := by
  rw [← Bool.not_eq_true, List.any_eq_true]
  constructor
  · intro h hk
    rcases List.mem_map.1 hk with ⟨x, hx, hxk⟩
    exact h ⟨x, hx, by simp [hxk]⟩
  · rintro h ⟨x, hx, hxk⟩
    exact h (List.mem_map.2 ⟨x, hx, eq_of_beq hxk⟩)

theorem lookupAssoc_eraseKey_ne {α : Type} {k k' : String} (hne : k ≠ k') :
    ∀ s : List (String × α), lookupAssoc k (eraseKey k' s) = lookupAssoc k s
  | [] => rfl
  | p :: t => by
    by_cases hp : (p.1 == k') = true
    · have hpk : (p.1 == k) = false :=
        beq_false_of_ne (by rw [eq_of_beq hp]; exact Ne.symm hne)
      simp only [eraseKey, List.filter_cons, hp, Bool.not_true, Bool.false_eq_true,
        if_false, lookupAssoc, List.find?, hpk]
      exact lookupAssoc_eraseKey_ne hne t
    · have hp' : (p.1 == k') = false := eq_false_of_ne_true hp
      by_cases hpk : (p.1 == k) = true
      · simp [eraseKey, List.filter_cons, hp', lookupAssoc, List.find?, hpk]
      · have hpk' : (p.1 == k) = false := eq_false_of_ne_true hpk
        simp only [eraseKey, List.filter_cons, hp', Bool.not_false, if_true,
          lookupAssoc, List.find?, hpk']
        exact lookupAssoc_eraseKey_ne hne t

theorem any_eraseKey_self {α : Type} (k : String) (s : List (String × α)) :
    (eraseKey k s).any (fun p => p.1 == k) = false := by
  rw [← Bool.not_eq_true, List.any_eq_true]
  push_neg
  intro x hx
  simp only [eraseKey] at hx
  simpa using (List.mem_filter.1 hx).2

theorem lookupAssoc_eraseKey_self {α : Type} (k : String) (s : List (String × α)) :
    lookupAssoc k (eraseKey k s) = none :=
  lookupAssoc_of_not_mem k _ (any_eraseKey_self k s)

theorem length_eraseKey_mem {α : Type} (k : String) :
    ∀ s : List (String × α), (s.map Prod.fst).Nodup → k ∈ s.map Prod.fst →
      (eraseKey k s).length + 1 = s.length
  | p :: t, hnd, hmem => by
    simp only [List.map_cons, List.nodup_cons] at hnd
    rcases List.mem_cons.1 hmem with hk | hk
    · have hp : (p.1 == k) = true := by simp [hk]
      have ht : List.filter (fun x => !(x.1 == k)) t = t := by
        rw [List.filter_eq_self]
        intro x hx
        have hx1 : x.1 ≠ k := by
          intro hem
          exact hnd.1 (by rw [← hk, ← hem]; exact List.mem_map_of_mem Prod.fst hx)
        simpa using hx1
      simp [eraseKey, List.filter_cons, hp, ht]
    · have hp : (p.1 == k) = false := by
        have hne : p.1 ≠ k := fun h => hnd.1 (h ▸ hk)
        simpa using hne
      simp only [eraseKey, List.filter_cons, hp, Bool.not_false, if_true,
        List.length_cons]
      have := length_eraseKey_mem k t hnd.2 hk
      simp only [eraseKey] at this
      omega

theorem any_filter_of_any_false {α : Type} {p q : α → Bool} {s : List α}
    (h : s.any p = false) : (s.filter q).any p = false := by
  rw [← Bool.not_eq_true, List.any_eq_true]
  rintro ⟨x, hx, hpx⟩
  rw [← Bool.not_eq_true, List.any_eq_true] at h
  exact h ⟨x, (List.mem_filter.1 hx).1, hpx⟩

theorem lookupAssoc_insertAssoc_ne_aux1 {α : Type} {k key : String} (hne : k ≠ key)
    (v : α) : ∀ s : List (String × α),
      lookupAssoc k (s.map (fun p => if p.1 == key then (key, v) else p)) =
        lookupAssoc k s
  | [] => rfl
  | p :: t => by
    by_cases hp : (p.1 == key) = true
    · have hpk : (p.1 == k) = false :=
        beq_false_of_ne (by rw [eq_of_beq hp]; exact Ne.symm hne)
      have hkk : (key == k) = false := beq_false_of_ne (Ne.symm hne)
      simp only [List.map_cons, hp, if_true, lookupAssoc, List.find?, hkk, hpk]
      exact lookupAssoc_insertAssoc_ne_aux1 hne v t
    · have hp' : (p.1 == key) = false := eq_false_of_ne_true hp
      by_cases hpk : (p.1 == k) = true
      · simp [List.map_cons, hp', lookupAssoc, List.find?, hpk]
      · have hpk' : (p.1 == k) = false := eq_false_of_ne_true hpk
        simp only [List.map_cons, hp', Bool.false_eq_true, if_false,
          lookupAssoc, List.find?, hpk']
        exact lookupAssoc_insertAssoc_ne_aux1 hne v t

theorem lookupAssoc_insertAssoc_ne_aux2 {α : Type} {k key : String} (hne : k ≠ key)
    (v : α) : ∀ s : List (String × α),
      lookupAssoc k (s ++ [(key, v)]) = lookupAssoc k s
  | [] => by
    have hkk : (key == k) = false := beq_false_of_ne (Ne.symm hne)
    simp [lookupAssoc, List.find?, hkk]
  | p :: t => by
    by_cases hpk : (p.1 == k) = true
    · simp [lookupAssoc, List.find?, hpk]
    · have hpk' : (p.1 == k) = false := eq_false_of_ne_true hpk
      simp only [List.cons_append, lookupAssoc, List.find?, hpk']
      exact lookupAssoc_insertAssoc_ne_aux2 hne v t

theorem lookupAssoc_insertAssoc_ne {α : Type} {k key : String} (hne : k ≠ key)
    (v : α) (s : List (String × α)) :
    lookupAssoc k (insertAssoc key v s) = lookupAssoc k s := by
  unfold insertAssoc
  by_cases h : s.any (fun p => p.1 == key) = true
  · rw [if_pos h]
    exact lookupAssoc_insertAssoc_ne_aux1 hne v s
  · rw [if_neg h]
    exact lookupAssoc_insertAssoc_ne_aux2 hne v s

theorem map_fst_insertAssoc_overwrite {α : Type} {key : String} (v : α)
    {s : List (String × α)} (h : s.any (fun p => p.1 == key) = true) :
    (insertAssoc key v s).map Prod.fst = s.map Prod.fst := by
  rw [insertAssoc, if_pos h, List.map_map]
  apply List.map_congr_left
  intro p _
  by_cases hp : (p.1 == key) = true
  · simp [Function.comp, hp, (eq_of_beq hp).symm]
  · simp [Function.comp, eq_false_of_ne_true hp]

theorem put_evict_shape {α : Type} (c : ContextAwareCache α) (q : String)
    (ctx : Context) (v : α) {oldest : String} {rest : List String}
    (hnew : c.store.any (fun p => p.1 == make_key q ctx) = false)
    (hfull : c.store.length ≥ c.max_size)
    (hao : c.access_order = oldest :: rest) :
    c.put q ctx v = Except.ok { c with
      store := insertAssoc (make_key q ctx) v (eraseKey oldest c.store),
      access_order := if rest.contains (make_key q ctx) then rest
                      else rest ++ [make_key q ctx] } := by
  unfold ContextAwareCache.put
  simp only [hao]
  rw [if_pos ⟨hfull, by simp [hnew]⟩]

theorem put_noevict_shape {α : Type} (c : ContextAwareCache α) (q : String)
    (ctx : Context) (v : α)
    (hany : c.store.any (fun p => p.1 == make_key q ctx) = true) :
    c.put q ctx v = Except.ok { c with
      store := insertAssoc (make_key q ctx) v c.store,
      access_order := if c.access_order.contains (make_key q ctx) then c.access_order
                      else c.access_order ++ [make_key q ctx] } := by
  unfold ContextAwareCache.put
  rw [if_neg (by simp [hany])]

/-- C4: when the store is full and the key is new, `put` evicts exactly
the least-recently-used entry — the head of the access-order list — and
then inserts the new binding (the store size is unchanged, the new key
is bound, the evicted key is gone, every other key keeps its value);
`put` on an existing key never evicts (the set of stored keys is
unchanged).  Concretely, with `max_size = 2`, puts of K1, K2, K3 in
order with no intervening gets evict K1, so `get K1` is then absent. -/
theorem C4_put_lru_eviction {α : Type} (c : ContextAwareCache α) (q : String)
    (ctx : Context) (v : α) (oldest : String) (rest : List String)
    (hnd : (c.store.map Prod.fst).Nodup) :
    (make_key q ctx ∉ c.store.map Prod.fst → c.store.length ≥ c.max_size →
      c.access_order = oldest :: rest → oldest ∈ c.store.map Prod.fst →
      ∃ c', c.put q ctx v = Except.ok c' ∧
        c'.store.length = c.store.length ∧
        lookupAssoc (make_key q ctx) c'.store = some v ∧
        lookupAssoc oldest c'.store = none ∧
        ∀ k, k ≠ make_key q ctx → k ≠ oldest →
          lookupAssoc k c'.store = lookupAssoc k c.store) ∧
    (make_key q ctx ∈ c.store.map Prod.fst →
      ∃ c', c.put q ctx v = Except.ok c' ∧
        c'.store.map Prod.fst = c.store.map Prod.fst) ∧
    ((((ContextAwareCache.init Int 2).put "K1" [] 0).bind
        (fun c => (c.put "K2" [] 0).bind (fun c => c.put "K3" [] 0))).map
        (fun c => (c.get "K1" []).2)).toOption = some none := by
  refine ⟨?_, ?_, by decide⟩
  · intro hnew hfull hao holdmem
    have hnew' : c.store.any (fun p => p.1 == make_key q ctx) = false :=
      (any_key_eq_false_iff _ _).2 hnew
    have hok := put_evict_shape c q ctx v hnew' hfull hao
    have holdne : oldest ≠ make_key q ctx := fun h => hnew (h ▸ holdmem)
    have herased : (eraseKey oldest c.store).any
        (fun p => p.1 == make_key q ctx) = false := any_filter_of_any_false hnew'
    refine ⟨_, hok, ?_, ?_, ?_, ?_⟩
    · show (insertAssoc (make_key q ctx) v (eraseKey oldest c.store)).length =
        c.store.length
      rw [insertAssoc, if_neg (by simp [herased])]
      have := length_eraseKey_mem oldest c.store hnd holdmem
      simp only [List.length_append, List.length_cons, List.length_nil]
      omega
    · exact lookupAssoc_insertAssoc_self _ _ _
    · show lookupAssoc oldest
        (insertAssoc (make_key q ctx) v (eraseKey oldest c.store)) = none
      rw [lookupAssoc_insertAssoc_ne holdne, lookupAssoc_eraseKey_self]
    · intro k hk1 hk2
      show lookupAssoc k
        (insertAssoc (make_key q ctx) v (eraseKey oldest c.store)) = lookupAssoc k c.store
      rw [lookupAssoc_insertAssoc_ne hk1, lookupAssoc_eraseKey_ne hk2]
  · intro hmem
    have hany : c.store.any (fun p => p.1 == make_key q ctx) = true := by
      rcases List.mem_map.1 hmem with ⟨x, hx, hxk⟩
      exact List.any_eq_true.2 ⟨x, hx, by simp [hxk]⟩
    exact ⟨_, put_noevict_shape c q ctx v hany, map_fst_insertAssoc_overwrite v hany⟩

/-- Witness for C4: a full cache receiving a fresh key evicts the head
of the access-order list and keeps its size. -/
theorem C4_witness :
    ((([(make_key "a" [], (1 : Int)), (make_key "b" [], 2)].map Prod.fst).Nodup) ∧
      make_key "c" [] ∉
        [(make_key "a" [], (1 : Int)), (make_key "b" [], 2)].map Prod.fst) ∧
      (∃ c', ({ max_size := 2,
                store := [(make_key "a" [], 1), (make_key "b" [], 2)],
                access_order := [make_key "a" [], make_key "b" []], hits := 0,
                misses := 0 : ContextAwareCache Int }).put "c" [] 3 = Except.ok c' ∧
        c'.store.length = ([(make_key "a" [], (1 : Int)), (make_key "b" [], 2)]).length ∧
        lookupAssoc (make_key "c" []) c'.store = some 3 ∧
        lookupAssoc (make_key "a" []) c'.store = none ∧
        ∀ k, k ≠ make_key "c" [] → k ≠ make_key "a" [] →
          lookupAssoc k c'.store =
            lookupAssoc k [(make_key "a" [], (1 : Int)), (make_key "b" [], 2)]) := by
  refine ⟨⟨by decide, by decide⟩, ?_⟩
  exact (C4_put_lru_eviction
      ({ max_size := 2, store := [(make_key "a" [], 1), (make_key "b" [], 2)],
          access_order := [make_key "a" [], make_key "b" []], hits := 0,
          misses := 0 : ContextAwareCache Int }) "c" [] 3 (make_key "a" [])
      [make_key "b" []] (by decide)).1 (by decide) (by decide) rfl (by decide)

/-- C5 as stated is false: `put` appends the key to `_access_order`
only when it is not already there, so overwriting an existing key does
not move it to the most-recently-used end.  After puts of k1, k2 and
again k1, the MRU end holds k2's key, not k1's. -/
theorem C5_counterexample :
    ((((ContextAwareCache.init Int 2).put "k1" [] 0).bind
        (fun c => (c.put "k2" [] 0).bind (fun c => c.put "k1" [] 1))).map
        (fun c => c.access_order.getLast?)).toOption =
      some (some (make_key "k2" [])) ∧
      make_key "k2" [] ≠ make_key "k1" [] :=
  ⟨by decide, by decide⟩

/-- C5 amended: a `put` whose key is not yet tracked in the
access-order list leaves that key at the most-recently-used end, while
a `put` that overwrites a key already stored and already tracked leaves
the access-order list entirely unchanged. -/
theorem C5_put_access_order {α : Type} (c : ContextAwareCache α) (q : String)
    (ctx : Context) (v : α) (c' : ContextAwareCache α)
    (hok : c.put q ctx v = Except.ok c') :
    (make_key q ctx ∉ c.access_order →
      c'.access_order.getLast? = some (make_key q ctx)) ∧
    (make_key q ctx ∈ c.store.map Prod.fst → make_key q ctx ∈ c.access_order →
      c'.access_order = c.access_order) := by
  unfold ContextAwareCache.put at hok
  by_cases hcond : c.store.length ≥ c.max_size ∧
      ¬ (c.store.any fun p => p.1 == make_key q ctx) = true
  · rw [if_pos hcond] at hok
    cases hao : c.access_order with
    | nil => rw [hao] at hok; exact absurd hok (by simp)
    | cons oldest rest =>
      rw [hao] at hok
      cases hok
      constructor
      · intro hnotin
        have hnr : make_key q ctx ∉ rest := fun h => hnotin (List.mem_cons_of_mem _ h)
        show (if rest.contains (make_key q ctx) then rest
              else rest ++ [make_key q ctx]).getLast? = some (make_key q ctx)
        rw [if_neg (by simpa using hnr)]
        exact List.getLast?_concat rest
      · intro hmem _
        rcases List.mem_map.1 hmem with ⟨x, hx, hxk⟩
        exact absurd (List.any_eq_true.2 ⟨x, hx, by simp [hxk]⟩) hcond.2
  · rw [if_neg hcond] at hok
    cases hok
    constructor
    · intro hnotin
      show (if c.access_order.contains (make_key q ctx) then c.access_order
            else c.access_order ++ [make_key q ctx]).getLast? =
        some (make_key q ctx)
      rw [if_neg (by simpa using hnotin)]
      exact List.getLast?_concat c.access_order
    · intro _ hin
      show (if c.access_order.contains (make_key q ctx) then c.access_order
            else c.access_order ++ [make_key q ctx]) = c.access_order
      rw [if_pos (by simpa using hin)]

/-- Witness for the amended C5: a fresh-key put lands at the MRU end;
an overwriting put leaves the access-order list unchanged. -/
theorem C5_witness :
    (make_key "k1" [] ∉ (ContextAwareCache.init Int 2).access_order ∧
      ({ max_size := 2, store := [(make_key "k1" [], 0)],
         access_order := [make_key "k1" []], hits := 0, misses := 0 :
           ContextAwareCache Int }).access_order.getLast? =
        some (make_key "k1" [])) ∧
    (make_key "k1" [] ∈
        ([(make_key "k1" [], (0 : Int)), (make_key "k2" [], 0)].map Prod.fst) ∧
      make_key "k1" [] ∈ [make_key "k1" [], make_key "k2" []] ∧
      ({ max_size := 2, store := [(make_key "k1" [], 1), (make_key "k2" [], 0)],
         access_order := [make_key "k1" [], make_key "k2" []], hits := 0,
         misses := 0 : ContextAwareCache Int }).access_order =
        [make_key "k1" [], make_key "k2" []]) :=
  ⟨⟨by decide,
    (C5_put_access_order (ContextAwareCache.init Int 2) "k1" [] 0 _ rfl).1
      (by decide)⟩,
   ⟨by decide, by decide,
    (C5_put_access_order
        ({ max_size := 2, store := [(make_key "k1" [], 0), (make_key "k2" [], 0)],
           access_order := [make_key "k1" [], make_key "k2" []], hits := 0,
           misses := 0 : ContextAwareCache Int }) "k1" [] 1 _ rfl).2
      (by decide) (by decide)⟩⟩

/-- One registered server: a Python dict with a capability set (used
only through membership), the in-flight request count and the lifetime
request count.  `current_load` is an unbounded Python int, so it is
modelled as `Int` to make its non-negativity a real invariant. -/
structure ServerInfo where
  capabilities : List String
  current_load : Int
  total_handled : Nat
  deriving DecidableEq

/-- State of `CapabilityAwareLoadBalancer`: `self.servers`, a dict from
server name to info, in registration order. -/
structure CapabilityAwareLoadBalancer where
  servers : List (String × ServerInfo)
  deriving DecidableEq

/-- `CapabilityAwareLoadBalancer()`. -/
def CapabilityAwareLoadBalancer.init : CapabilityAwareLoadBalancer := ⟨[]⟩

/-- Model of `register_server`: `self.servers[name] = ...`. -/
def CapabilityAwareLoadBalancer.register_server (lb : CapabilityAwareLoadBalancer)
    (name : String) (capabilities : List String) : CapabilityAwareLoadBalancer :=
  ⟨insertAssoc name
    { capabilities := capabilities, current_load := 0, total_handled := 0 }
    lb.servers⟩

/-- Model of `set(required_caps).issubset(info["capabilities"])`. -/
def hasCaps (required_caps : List String) (info : ServerInfo) : Bool :=
  required_caps.all (fun cap => info.capabilities.contains cap)

/-- Candidate ordering used by `candidates.sort(key=lambda c: c[1])`. -/
def loadLe (p q : String × Int) : Prop := p.2 ≤ q.2

instance : DecidableRel loadLe := fun p q => inferInstanceAs (Decidable (p.2 ≤ q.2))

instance : IsTrans (String × Int) loadLe :=
  ⟨fun _ _ _ h h' => le_trans h h'⟩

instance : IsTotal (String × Int) loadLe :=
  ⟨fun p q => le_total p.2 q.2⟩

/-- The in-place update `info["current_load"] += 1; info["total_handled"] += 1`. -/
def bumpInfo (i : ServerInfo) : ServerInfo :=
  { i with current_load := i.current_load + 1, total_handled := i.total_handled + 1 }

/-- Bump a chosen server's `current_load` and `total_handled` in place. -/
def bumpServer (chosen : String) (servers : List (String × ServerInfo)) :
    List (String × ServerInfo) :=
  servers.map (fun p => if p.1 == chosen then (p.1, bumpInfo p.2) else p)

/-- Model of `select_server`: collect every `(name, current_load)` whose
capability set covers `required_caps`, stably sort by load, pick the
first, increment its counters and return its name (`None` when no
candidate exists). -/
def CapabilityAwareLoadBalancer.select_server (lb : CapabilityAwareLoadBalancer)
    (required_caps : List String) :
    CapabilityAwareLoadBalancer × Option String :=
  let candidates :=
    (lb.servers.filter (fun p => hasCaps required_caps p.2)).map
      (fun p => (p.1, p.2.current_load))
  match List.insertionSort loadLe candidates with
  | [] => (lb, none)
  | (chosen, _) :: _ => (⟨bumpServer chosen lb.servers⟩, some chosen)

/-- Model of `release`: decrement the named server's load, floored at zero; a
name absent from the dict leaves the state unchanged. -/
def releaseInfo (i : ServerInfo) : ServerInfo :=
  { i with current_load := max 0 (i.current_load - 1) }

def CapabilityAwareLoadBalancer.release (lb : CapabilityAwareLoadBalancer)
    (server_name : String) : CapabilityAwareLoadBalancer :=
  if lb.servers.any (fun p => p.1 == server_name) then
    ⟨lb.servers.map (fun p =>
      if p.1 == server_name then (p.1, releaseInfo p.2) else p)⟩
  else lb

/-- Model of `load_distribution`. -/
def CapabilityAwareLoadBalancer.load_distribution
    (lb : CapabilityAwareLoadBalancer) : List (String × Nat) :=
  lb.servers.map (fun p => (p.1, p.2.total_handled))

theorem hasCaps_iff (rc : List String) (info : ServerInfo) :
    hasCaps rc info = true ↔ ∀ cap ∈ rc, cap ∈ info.capabilities := by
  simp [hasCaps, List.all_eq_true]

theorem lookupAssoc_mapUpdate_self {α : Type} (name : String) (upd : α → α) :
    ∀ s : List (String × α),
      lookupAssoc name
        (s.map (fun p => if p.1 == name then (p.1, upd p.2) else p)) =
        (lookupAssoc name s).map upd
  | [] => rfl
  | p :: t => by
    by_cases hp : (p.1 == name) = true
    · simp [lookupAssoc, List.find?, hp]
    · have hp' : (p.1 == name) = false := eq_false_of_ne_true hp
      have := lookupAssoc_mapUpdate_self name upd t
      simp only [List.map_cons, hp', Bool.false_eq_true, if_false]
      simpa [lookupAssoc, List.find?, hp'] using this

theorem lookupAssoc_mapUpdate_ne {α : Type} {m name : String} (hne : m ≠ name)
    (upd : α → α) : ∀ s : List (String × α),
      lookupAssoc m
        (s.map (fun p => if p.1 == name then (p.1, upd p.2) else p)) =
        lookupAssoc m s
  | [] => rfl
  | p :: t => by
    by_cases hp : (p.1 == name) = true
    · have hpm : (p.1 == m) = false :=
        beq_false_of_ne (by rw [eq_of_beq hp]; exact Ne.symm hne)
      have := lookupAssoc_mapUpdate_ne hne upd t
      simp only [List.map_cons, hp, if_true]
      simpa [lookupAssoc, List.find?, hpm] using this
    · have hp' : (p.1 == name) = false := eq_false_of_ne_true hp
      by_cases hpm : (p.1 == m) = true
      · simp [List.map_cons, hp', lookupAssoc, List.find?, hpm]
      · have hpm' : (p.1 == m) = false := eq_false_of_ne_true hpm
        have := lookupAssoc_mapUpdate_ne hne upd t
        simp only [List.map_cons, hp', Bool.false_eq_true, if_false]
        simpa [lookupAssoc, List.find?, hpm'] using this

theorem lookupAssoc_eq_some_of_mem_nodup {α : Type} {name : String} {info : α} :
    ∀ {s : List (String × α)}, (name, info) ∈ s → (s.map Prod.fst).Nodup →
      lookupAssoc name s = some info
  | p :: t, hmem, hnd => by
    simp only [List.map_cons, List.nodup_cons] at hnd
    rcases List.mem_cons.1 hmem with h | h
    · subst h
      simp [lookupAssoc, List.find?]
    · have hp : (p.1 == name) = false := by
        have : p.1 ≠ name := fun he =>
          hnd.1 (he ▸ List.mem_map_of_mem Prod.fst h)
        simpa using this
      simp only [lookupAssoc, List.find?, hp]
      exact lookupAssoc_eq_some_of_mem_nodup h hnd.2

/-- C6: `select_server` considers only providers whose capability set
covers the required capabilities; it returns `none` (without raising)
exactly when no provider qualifies, and otherwise returns the name of a
qualifying provider of minimal `current_load`, incrementing that
provider's `current_load` and `total_handled` by one and leaving every
other provider untouched. -/
theorem C6_select_server (lb : CapabilityAwareLoadBalancer)
    (required_caps : List String)
    (hnd : (lb.servers.map Prod.fst).Nodup) :
    ((lb.select_server required_caps).2 = none ↔
      ∀ p ∈ lb.servers, ¬ ∀ cap ∈ required_caps, cap ∈ p.2.capabilities) ∧
    (∀ name, (lb.select_server required_caps).2 = some name →
      ∃ info, (name, info) ∈ lb.servers ∧
        (∀ cap ∈ required_caps, cap ∈ info.capabilities) ∧
        (∀ p ∈ lb.servers, (∀ cap ∈ required_caps, cap ∈ p.2.capabilities) →
          info.current_load ≤ p.2.current_load) ∧
        lookupAssoc name (lb.select_server required_caps).1.servers =
          some { info with current_load := info.current_load + 1,
                           total_handled := info.total_handled + 1 } ∧
        ∀ m, m ≠ name →
          lookupAssoc m (lb.select_server required_caps).1.servers =
            lookupAssoc m lb.servers) := by
  have select_eq : lb.select_server required_caps =
      (match List.insertionSort loadLe
          ((lb.servers.filter (fun p => hasCaps required_caps p.2)).map
            (fun p => (p.1, p.2.current_load))) with
      | [] => (lb, none)
      | (chosen, _) :: _ => (⟨bumpServer chosen lb.servers⟩, some chosen)) := rfl
  set candidates :=
    (lb.servers.filter (fun p => hasCaps required_caps p.2)).map
      (fun p => (p.1, p.2.current_load)) with hcand
  have hperm : (List.insertionSort loadLe candidates).Perm candidates :=
    List.perm_insertionSort _ _
  constructor
  · constructor
    · intro hnone p hp hcaps
      have hf : p ∈ lb.servers.filter (fun p => hasCaps required_caps p.2) :=
        List.mem_filter.2 ⟨hp, (hasCaps_iff _ _).2 hcaps⟩
      have hc : (p.1, p.2.current_load) ∈ candidates :=
        hcand ▸ List.mem_map_of_mem _ hf
      have hs : (p.1, p.2.current_load) ∈ List.insertionSort loadLe candidates :=
        hperm.symm.subset hc
      rw [select_eq] at hnone
      rcases hsort : List.insertionSort loadLe candidates with _ | ⟨⟨n, l⟩, t⟩
      · rw [hsort] at hs; exact absurd hs (List.not_mem_nil _)
      · rw [hsort] at hnone; simp at hnone
    · intro hall
      have hnil : candidates = [] := by
        rw [hcand, List.map_eq_nil_iff, List.filter_eq_nil_iff]
        intro p hp
        simp only [Bool.not_eq_true]
        rw [← Bool.not_eq_true, hasCaps_iff]
        exact hall p hp
      rw [select_eq, hnil]
      rfl
  · intro name hsome
    rw [select_eq] at hsome ⊢
    rcases hsort : List.insertionSort loadLe candidates with _ | ⟨⟨n, l⟩, t⟩
    · rw [hsort] at hsome; exact absurd hsome (by simp)
    · rw [hsort] at hsome
      simp only [Option.some.injEq] at hsome
      subst hsome
      have hhead : (n, l) ∈ candidates := hperm.subset (hsort ▸ List.mem_cons_self _ _)
      rw [hcand] at hhead
      rcases List.mem_map.1 hhead with ⟨p, hpf, hpe⟩
      have hpserv : p ∈ lb.servers := (List.mem_filter.1 hpf).1
      have hpcaps : hasCaps required_caps p.2 = true := (List.mem_filter.1 hpf).2
      have hpn : p.1 = n := congrArg Prod.fst hpe
      have hpl : p.2.current_load = l := congrArg Prod.snd hpe
      refine ⟨p.2, by rw [← hpn]; exact hpserv, (hasCaps_iff _ _).1 hpcaps, ?_, ?_, ?_⟩
      · intro q hq hqcaps
        have hqf : q ∈ lb.servers.filter (fun p => hasCaps required_caps p.2) :=
          List.mem_filter.2 ⟨hq, (hasCaps_iff _ _).2 hqcaps⟩
        have hqc : (q.1, q.2.current_load) ∈ candidates :=
          hcand ▸ List.mem_map_of_mem _ hqf
        have hqs : (q.1, q.2.current_load) ∈ List.insertionSort loadLe candidates :=
          hperm.symm.subset hqc
        rw [hsort] at hqs
        rcases List.mem_cons.1 hqs with h | h
        · rw [hpl]
          exact le_of_eq (congrArg Prod.snd h).symm
        · have hsorted : List.Sorted loadLe (List.insertionSort loadLe candidates) :=
            List.sorted_insertionSort _ _
          rw [hsort] at hsorted
          have := List.rel_of_sorted_cons hsorted _ h
          rw [hpl]
          exact this
      · show lookupAssoc n (bumpServer n lb.servers) = _
        unfold bumpServer
        rw [lookupAssoc_mapUpdate_self n bumpInfo]
        have hmem : (n, p.2) ∈ lb.servers := by rw [← hpn]; exact hpserv
        rw [lookupAssoc_eq_some_of_mem_nodup hmem hnd]
        rfl
      · intro m hm
        show lookupAssoc m (bumpServer n lb.servers) = _
        unfold bumpServer
        rw [lookupAssoc_mapUpdate_ne hm bumpInfo]

/-- A sample balancer state: `s1` lacks `classify`; `s2` and `s3` both
qualify for `search, classify` with loads 2 and 0. -/
def exampleLB : CapabilityAwareLoadBalancer :=
  ⟨[("s1", { capabilities := ["search"], current_load := 0, total_handled := 5 }),
    ("s2", { capabilities := ["search", "classify"], current_load := 2,
             total_handled := 0 }),
    ("s3", { capabilities := ["search", "classify"], current_load := 0,
             total_handled := 0 })]⟩

/-- Witness for C6: among the qualifying providers with loads 2 and 0,
the one with load 0 (`s3`) is selected; `s1`, lacking `classify`, is
not. -/
theorem C6_witness :
    ((exampleLB.servers.map Prod.fst).Nodup ∧
      (exampleLB.select_server ["search", "classify"]).2 = some "s3") ∧
      ∃ info, ("s3", info) ∈ exampleLB.servers ∧
        (∀ cap ∈ ["search", "classify"], cap ∈ info.capabilities) ∧
        (∀ p ∈ exampleLB.servers,
          (∀ cap ∈ ["search", "classify"], cap ∈ p.2.capabilities) →
          info.current_load ≤ p.2.current_load) ∧
        lookupAssoc "s3" (exampleLB.select_server ["search", "classify"]).1.servers =
          some { info with current_load := info.current_load + 1,
                           total_handled := info.total_handled + 1 } ∧
        ∀ m, m ≠ "s3" →
          lookupAssoc m (exampleLB.select_server ["search", "classify"]).1.servers =
            lookupAssoc m exampleLB.servers :=
  ⟨⟨by decide, by decide⟩,
    (C6_select_server exampleLB ["search", "classify"] (by decide)).2 "s3"
      (by decide)⟩

/-- One observable operation on the load balancer. -/
inductive LBOp where
  | register (name : String) (caps : List String) : LBOp
  | select (caps : List String) : LBOp
  | release (name : String) : LBOp

/-- Apply one operation (ignoring returned values). -/
def applyOp (lb : CapabilityAwareLoadBalancer) : LBOp → CapabilityAwareLoadBalancer
  | LBOp.register name caps => lb.register_server name caps
  | LBOp.select caps => (lb.select_server caps).1
  | LBOp.release name => lb.release name

/-- Run a sequence of operations from a fresh balancer. -/
def runOps (ops : List LBOp) : CapabilityAwareLoadBalancer :=
  ops.foldl applyOp CapabilityAwareLoadBalancer.init

/-- Every server's `current_load` is non-negative. -/
def NonNegLoads (lb : CapabilityAwareLoadBalancer) : Prop :=
  ∀ p ∈ lb.servers, 0 ≤ p.2.current_load

theorem select_server_eq (lb : CapabilityAwareLoadBalancer) (rc : List String) :
    lb.select_server rc =
      (match List.insertionSort loadLe
          ((lb.servers.filter (fun p => hasCaps rc p.2)).map
            (fun p => (p.1, p.2.current_load))) with
      | [] => (lb, none)
      | (chosen, _) :: _ => (⟨bumpServer chosen lb.servers⟩, some chosen)) := rfl

theorem mem_insertAssoc {α : Type} {x : String × α} {k : String} {v : α} :
    ∀ {s : List (String × α)}, x ∈ insertAssoc k v s → x = (k, v) ∨ x ∈ s := by
  intro s hx
  unfold insertAssoc at hx
  split at hx
  · rcases List.mem_map.1 hx with ⟨p, hp, he⟩
    by_cases hpk : (p.1 == k) = true
    · rw [if_pos hpk] at he
      exact Or.inl he.symm
    · rw [if_neg hpk] at he
      exact Or.inr (he ▸ hp)
  · rcases List.mem_append.1 hx with h | h
    · exact Or.inr h
    · exact Or.inl (by simpa using h)

theorem nonneg_applyOp (lb : CapabilityAwareLoadBalancer) (op : LBOp)
    (h : NonNegLoads lb) : NonNegLoads (applyOp lb op) := by
  cases op with
  | register name caps =>
    intro p hp
    rcases mem_insertAssoc hp with he | hm
    · rw [he]
    · exact h p hm
  | select caps =>
    show NonNegLoads (lb.select_server caps).1
    rw [select_server_eq]
    rcases hs : List.insertionSort loadLe
        ((lb.servers.filter (fun p => hasCaps caps p.2)).map
          (fun p => (p.1, p.2.current_load))) with _ | ⟨⟨c0, l0⟩, t⟩
    · rw [hs]
      exact h
    · rw [hs]
      intro p hp
      have hp2 : p ∈ lb.servers.map
          (fun p => if p.1 == c0 then (p.1, bumpInfo p.2) else p) := hp
      rcases List.mem_map.1 hp2 with ⟨x, hx, he⟩
      by_cases hxc : (x.1 == c0) = true
      · rw [if_pos hxc] at he
        have := h x hx
        rw [← he]
        show 0 ≤ (bumpInfo x.2).current_load
        simp only [bumpInfo]
        omega
      · rw [if_neg hxc] at he
        exact he ▸ h x hx
  | release name =>
    show NonNegLoads (lb.release name)
    unfold CapabilityAwareLoadBalancer.release
    by_cases hg : lb.servers.any (fun p => p.1 == name) = true
    · rw [if_pos hg]
      intro p hp
      rcases List.mem_map.1 hp with ⟨x, hx, he⟩
      by_cases hxc : (x.1 == name) = true
      · rw [if_pos hxc] at he
        rw [← he]
        show 0 ≤ (releaseInfo x.2).current_load
        simp only [releaseInfo]
        exact le_max_left 0 _
      · rw [if_neg hxc] at he
        exact he ▸ h x hx
    · rw [if_neg hg]
      exact h

theorem nonneg_runOps_aux :
    ∀ (ops : List LBOp) (lb : CapabilityAwareLoadBalancer),
      NonNegLoads lb → NonNegLoads (ops.foldl applyOp lb)
  | [], _, h => h
  | op :: ops, lb, h => nonneg_runOps_aux ops (applyOp lb op) (nonneg_applyOp lb op h)

theorem release_lookup (lb : CapabilityAwareLoadBalancer) (name : String) :
    lookupAssoc name (lb.release name).servers =
      (lookupAssoc name lb.servers).map releaseInfo := by
  unfold CapabilityAwareLoadBalancer.release
  by_cases h : lb.servers.any (fun p => p.1 == name) = true
  · rw [if_pos h]
    exact lookupAssoc_mapUpdate_self name releaseInfo lb.servers
  · rw [if_neg h]
    rw [lookupAssoc_of_not_mem name lb.servers (eq_false_of_ne_true h)]
    rfl

/-- C7: across any sequence of operations from a fresh balancer, every
provider's `current_load` stays non-negative, and releasing a provider
whose load is already 0 leaves it at exactly 0. -/
theorem C7_load_never_negative :
    (∀ ops : List LBOp, ∀ p ∈ (runOps ops).servers, 0 ≤ p.2.current_load) ∧
    (∀ (lb : CapabilityAwareLoadBalancer) (name : String) (info : ServerInfo),
      lookupAssoc name lb.servers = some info → info.current_load = 0 →
      lookupAssoc name (lb.release name).servers = some info) := by
  constructor
  · intro ops
    exact nonneg_runOps_aux ops CapabilityAwareLoadBalancer.init
      (fun p hp => absurd hp (List.not_mem_nil p))
  · intro lb name info hlook hzero
    rw [release_lookup, hlook]
    have : releaseInfo info = info := by
      cases info with
      | mk caps load handled =>
        simp only [releaseInfo]
        simp only at hzero
        rw [hzero]
        rfl
    simp [this]

/-- Witness for C7: register, select, then release twice — the load
ends at 0, not −1, and a further release keeps it at 0. -/
theorem C7_witness :
    (("a", (⟨["search"], 0, 1⟩ : ServerInfo)) ∈
      (runOps [LBOp.register "a" ["search"], LBOp.select ["search"],
        LBOp.release "a", LBOp.release "a"]).servers ∧
      (0 : Int) ≤ (⟨["search"], 0, 1⟩ : ServerInfo).current_load) ∧
    (lookupAssoc "a"
        (runOps [LBOp.register "a" ["search"], LBOp.select ["search"],
          LBOp.release "a", LBOp.release "a"]).servers =
        some ⟨["search"], 0, 1⟩ ∧
      lookupAssoc "a"
        ((runOps [LBOp.register "a" ["search"], LBOp.select ["search"],
          LBOp.release "a", LBOp.release "a"]).release "a").servers =
        some ⟨["search"], 0, 1⟩) :=
  ⟨⟨by decide,
    C7_load_never_negative.1
      [LBOp.register "a" ["search"], LBOp.select ["search"],
        LBOp.release "a", LBOp.release "a"]
      ("a", ⟨["search"], 0, 1⟩) (by decide)⟩,
   by decide,
   C7_load_never_negative.2
     (runOps [LBOp.register "a" ["search"], LBOp.select ["search"],
       LBOp.release "a", LBOp.release "a"]) "a"
     ⟨["search"], 0, 1⟩ (by decide) rfl⟩

/-- C10: releasing a name that was never registered raises no error and
leaves the whole balancer state unchanged. -/
theorem C10_release_unregistered (lb : CapabilityAwareLoadBalancer) (name : String)
    (h : name ∉ lb.servers.map Prod.fst) : lb.release name = lb := by
  unfold CapabilityAwareLoadBalancer.release
  have hany : lb.servers.any (fun p => p.1 == name) = false :=
    (any_key_eq_false_iff name lb.servers).2 h
  rw [if_neg (by simp [hany])]

/-- Witness for C10 on a one-server balancer and an unknown name. -/
theorem C10_witness :
    ("b" ∉ ((⟨[("a", ⟨["x"], 0, 0⟩)]⟩ :
        CapabilityAwareLoadBalancer).servers.map Prod.fst)) ∧
      (⟨[("a", ⟨["x"], 0, 0⟩)]⟩ : CapabilityAwareLoadBalancer).release "b" =
        ⟨[("a", ⟨["x"], 0, 0⟩)]⟩ :=
  ⟨by decide,
    C10_release_unregistered ⟨[("a", ⟨["x"], 0, 0⟩)]⟩ "b" (by decide)⟩

/-- State of `PerformanceMonitor`: the window size and the retained
latency samples (floats modelled as exact rationals). -/
structure PerformanceMonitor where
  window : Nat
  samples : List ℚ

/-- Python's slice `l[-k:]`: the last `k` elements when `k > 0`, but —
because `-0` is `0` — the whole list when `k = 0`. -/
def sliceLastPy {α : Type} (k : Nat) (l : List α) : List α :=
  if k = 0 then l else l.drop (l.length - k)

/-- Model of `record(latency)`: append, then truncate to
`self._samples[-self.window * 2:]` when the count exceeds
`2 × window`.  For `window = 0` that slice is `[-0:]`, which keeps the
entire list, so a window-0 monitor never truncates. -/
def PerformanceMonitor.record (m : PerformanceMonitor) (latency : ℚ) :
    PerformanceMonitor :=
  let s := m.samples ++ [latency]
  if s.length > m.window * 2 then
    { m with samples := sliceLastPy (m.window * 2) s }
  else
    { m with samples := s }

/-- Model of `statistics.mean` (exact on rationals; Python raises on an empty
list — the guarded callers below never pass one for `window ≥ 1`). -/
def mean (l : List ℚ) : ℚ := l.sum / l.length

/-- Model of `regression_detected`: false with fewer than `2 × window` samples;
otherwise compare the mean of the newest `window` samples
(`samples[-window:]`) against 1.2 times the mean of the `window`
samples before them (`samples[-2*window:-window]`). -/
def PerformanceMonitor.regression_detected (m : PerformanceMonitor) : Bool :=
  if m.samples.length < m.window * 2 then false
  else
    let old := (m.samples.drop (m.samples.length - m.window * 2)).take m.window
    let new := m.samples.drop (m.samples.length - m.window)
    decide (mean new > mean old * (12 / 10 : ℚ))

theorem record_window (m : PerformanceMonitor) (x : ℚ) :
    (m.record x).window = m.window := by
  unfold PerformanceMonitor.record
  by_cases h : (m.samples ++ [x]).length > m.window * 2
  · rw [if_pos h]
  · rw [if_neg h]

theorem record_length_min (m : PerformanceMonitor) (x : ℚ)
    (h : m.samples.length ≤ m.window * 2) (hw : 0 < m.window) :
    (m.record x).samples.length = min (m.samples.length + 1) (m.window * 2) := by
  unfold PerformanceMonitor.record
  by_cases hg : (m.samples ++ [x]).length > m.window * 2
  · rw [if_pos hg]
    show (sliceLastPy (m.window * 2) (m.samples ++ [x])).length = _
    rw [sliceLastPy, if_neg (by omega)]
    simp only [List.length_drop, List.length_append, List.length_cons,
      List.length_nil] at hg ⊢
    omega
  · rw [if_neg hg]
    simp only [List.length_append, List.length_cons, List.length_nil] at hg ⊢
    omega

theorem record_suffix (m : PerformanceMonitor) (x : ℚ) :
    (m.record x).samples.IsSuffix (m.samples ++ [x]) := by
  unfold PerformanceMonitor.record
  by_cases h : (m.samples ++ [x]).length > m.window * 2
  · rw [if_pos h]
    show (sliceLastPy (m.window * 2) (m.samples ++ [x])).IsSuffix _
    rw [sliceLastPy]
    by_cases h0 : m.window * 2 = 0
    · rw [if_pos h0]
    · rw [if_neg h0]
      exact List.drop_suffix _ _
  · rw [if_neg h]

theorem foldl_record_length :
    ∀ (xs : List ℚ) (m : PerformanceMonitor),
      m.samples.length ≤ m.window * 2 → 0 < m.window →
      (xs.foldl PerformanceMonitor.record m).samples.length =
        min (m.samples.length + xs.length) (m.window * 2)
  | [], m, hlen, _ => by
    simp only [List.foldl_nil, List.length_nil, Nat.add_zero]
    omega
  | x :: xs, m, hlen, hw => by
    rw [List.foldl_cons]
    have hrl := record_length_min m x hlen hw
    have hrw := record_window m x
    have hle : (m.record x).samples.length ≤ (m.record x).window * 2 := by
      rw [hrl, hrw]; omega
    have hw' : 0 < (m.record x).window := by
      rw [hrw]; exact hw
    rw [foldl_record_length xs (m.record x) hle hw', hrl, hrw]
    simp only [List.length_cons]
    omega

/-- C9 as stated is false at `window = 0`: Python's truncation slice
`self._samples[-self.window * 2:]` is `[-0:]` there, which keeps the
entire list, so a window-0 monitor retains 1 sample after one record —
more than `2 × window = 0`. -/
theorem C9_counterexample :
    ¬ ((([1] : List ℚ).foldl PerformanceMonitor.record
      ⟨0, []⟩).samples.length ≤ 2 * 0) := by decide

/-- C9 amended: for every monitor with a positive window, the number of
retained samples never exceeds `2 × window`; each `record` keeps a
suffix of the appended list (oldest dropped first); and recording
`5 × window` samples from a fresh monitor retains exactly
`2 × window`.  (At `window = 0` the Python code never truncates.) -/
theorem C9_bounded_samples (w : Nat) (xs : List ℚ) (hw : 0 < w) :
    ((xs.foldl PerformanceMonitor.record ⟨w, []⟩).samples.length ≤ 2 * w) ∧
    (∀ (m : PerformanceMonitor) (x : ℚ),
      (m.record x).samples.IsSuffix (m.samples ++ [x])) ∧
    (xs.length = 5 * w →
      (xs.foldl PerformanceMonitor.record ⟨w, []⟩).samples.length = 2 * w) := by
  have hfold := foldl_record_length xs ⟨w, []⟩ (by simp) hw
  simp only [List.length_nil, Nat.zero_add] at hfold
  exact ⟨by rw [hfold]; omega, fun m x => record_suffix m x,
    fun h5 => by rw [hfold, h5]; omega⟩

/-- Witness for the amended C9 at `window = 1` with five recorded
samples. -/
theorem C9_witness :
    0 < 1 ∧ ([1, 2, 3, 4, 5] : List ℚ).length = 5 * 1 ∧
      (([1, 2, 3, 4, 5] : List ℚ).foldl PerformanceMonitor.record
        ⟨1, []⟩).samples.length = 2 * 1 :=
  ⟨by decide, rfl,
    (C9_bounded_samples 1 [1, 2, 3, 4, 5] (by decide)).2.2 rfl⟩

/-- C8: with at least `2 × window` samples, regression is flagged iff
the mean of the newest `window` samples strictly exceeds 1.2 times the
mean of the `window` samples immediately before them; with fewer
samples it is never flagged.  At the boundary, a window of 1.0 followed
by a window of exactly 1.2 is not a regression, while 1.21 is. -/
theorem C8_regression_threshold :
    (∀ (w : Nat) (s : List ℚ), 0 < w →
      (PerformanceMonitor.regression_detected ⟨w, s⟩ = true ↔
        (w * 2 ≤ s.length ∧
          mean (s.drop (s.length - w)) >
            mean ((s.drop (s.length - w * 2)).take w) * (6 / 5)))) ∧
    (∀ (w : Nat) (s : List ℚ), s.length < w * 2 →
      PerformanceMonitor.regression_detected ⟨w, s⟩ = false) ∧
    PerformanceMonitor.regression_detected ⟨2, [1, 1, 12 / 10, 12 / 10]⟩ = false ∧
    PerformanceMonitor.regression_detected ⟨2, [1, 1, 121 / 100, 121 / 100]⟩ = true := by
  have h65 : (12 / 10 : ℚ) = 6 / 5 := by norm_num
  refine ⟨?_, ?_, ?_, ?_⟩
  · intro w s hw
    simp only [PerformanceMonitor.regression_detected]
    by_cases hlen : s.length < w * 2
    · rw [if_pos hlen]
      simp only [Bool.false_eq_true, false_iff, not_and]
      intro h1
      omega
    · rw [if_neg hlen]
      rw [h65, decide_eq_true_eq]
      exact ⟨fun h => ⟨by omega, h⟩, fun h => h.2⟩
  · intro w s hlen
    simp only [PerformanceMonitor.regression_detected]
    rw [if_pos hlen]
  · simp only [PerformanceMonitor.regression_detected]
    norm_num [mean, List.sum_cons, List.sum_nil]
  · simp only [PerformanceMonitor.regression_detected]
    norm_num [mean, List.sum_cons, List.sum_nil]

/-- Witness for C8 at `window = 2` on the boundary sample list. -/
theorem C8_witness :
    0 < 2 ∧
      (PerformanceMonitor.regression_detected ⟨2, [1, 1, 12 / 10, 12 / 10]⟩ = true ↔
        (2 * 2 ≤ ([1, 1, 12 / 10, 12 / 10] : List ℚ).length ∧
          mean (([1, 1, 12 / 10, 12 / 10] : List ℚ).drop
              (([1, 1, 12 / 10, 12 / 10] : List ℚ).length - 2)) >
            mean ((([1, 1, 12 / 10, 12 / 10] : List ℚ).drop
                (([1, 1, 12 / 10, 12 / 10] : List ℚ).length - 2 * 2)).take 2) *
              (6 / 5))) :=
  ⟨by decide, C8_regression_threshold.1 2 [1, 1, 12 / 10, 12 / 10] (by decide)⟩

/-- A task DAG: the Python dict mapping task name to the list of its
dependency names, in insertion order. -/
abbrev Dag := List (String × List String)

/-- The ways `execute_dag` can fail: the explicit
`RuntimeError("Cycle detected in task DAG")`, an exception propagated
out of `asyncio.gather` from the task callback, or exhaustion of the
model's fuel (proven unreachable below — the Python loop terminates). -/
inductive DagError (ε : Type) where
  | cycle : DagError ε
  | task : ε → DagError ε
  | fuel : DagError ε

/-- Model of `all(d in completed for d in deps)`. -/
def depsSatisfied (completedNames : List String) (deps : List String) : Bool :=
  deps.all (fun d => completedNames.contains d)

/-- The `while remaining:` loop of `execute_dag`, with explicit fuel.
Each iteration gathers the ready tasks, runs their callbacks
(`asyncio.gather`, sequentialised by `mapM` — a callback exception
propagates), records the results in `completed`, appends one wave
(`total_batches += 1`), and removes the ready tasks from `remaining`.
Removing each ready task by key (`del remaining[task]`) equals keeping
exactly the non-ready entries, as the dict's keys are unique. -/
def executeDagAux {ε α : Type} (f : String → Except ε α) :
    Nat → List (String × α) → List (List String) → Dag →
    Except (DagError ε) (List (String × α) × List (List String))
  | 0, _, _, _ => Except.error DagError.fuel
  | fuel + 1, completed, waves, remaining =>
    if remaining.isEmpty then Except.ok (completed, waves)
    else
      let ready := remaining.filter
        (fun td => depsSatisfied (completed.map Prod.fst) td.2)
      if ready.isEmpty then Except.error DagError.cycle
      else
        match ready.mapM (fun td => (f td.1).map (fun r => (td.1, r))) with
        | Except.error e => Except.error (DagError.task e)
        | Except.ok results =>
            executeDagAux f fuel (completed ++ results)
              (waves ++ [ready.map Prod.fst])
              (remaining.filter
                (fun td => !(depsSatisfied (completed.map Prod.fst) td.2)))

/-- Model of `RequestOrchestrator.execute_dag`: run the loop from an empty
`completed` dict.  Each loop iteration strictly shrinks `remaining`, so
`dag.length + 1` units of fuel always suffice.  The returned pair holds
the completed results and the executed waves; the number of waves is
the increase of `total_batches`. -/
def execute_dag {ε α : Type} (f : String → Except ε α) (dag : Dag) :
    Except (DagError ε) (List (String × α) × List (List String)) :=
  executeDagAux f (dag.length + 1) [] [] dag

/-- A dependency chain, listed dependency-first: each element is a
dependency of the next, and the final element is a task of the dag.
Its length is the number of tasks on the chain. -/
inductive Chain (dag : Dag) : List String → Prop where
  | single (t : String) (h : t ∈ dag.map Prod.fst) : Chain dag [t]
  | cons (x y : String) (l : List String)
      (hdep : ∃ deps, (y, deps) ∈ dag ∧ x ∈ deps)
      (hc : Chain dag (y :: l)) : Chain dag (x :: y :: l)

/-- A rank function witnessing acyclicity: every dependency has
strictly smaller rank than its dependent.  A finite dict is free of
dependency cycles exactly when such a rank exists. -/
def AcyclicRank (dag : Dag) (rank : String → Nat) : Prop :=
  ∀ t deps, (t, deps) ∈ dag → ∀ d ∈ deps, rank d < rank t

/-- The dag contains a directed dependency cycle: a chain leading from
some task back to itself. -/
def HasCycle (dag : Dag) : Prop := ∃ t l, Chain dag (t :: l ++ [t])

/-- Some task lists a dependency name that is not a task of the dag. -/
def HasUndefinedDep (dag : Dag) : Prop :=
  ∃ t deps, (t, deps) ∈ dag ∧ ∃ d ∈ deps, d ∉ dag.map Prod.fst

/-- The waves produced by the orchestrator, layered over the already
completed tasks `done`: each wave is nonempty, consists of tasks of the
dag, and depends only on `done`; tasks of the following wave were not
yet ready (some dependency outside `done`); and the rest of the waves
are layered over `done` extended by this wave. -/
inductive Layered (dag : Dag) : List String → List (List String) → Prop where
  | nil (done : List String) : Layered dag done []
  | cons (done : List String) (w : List String) (ws : List (List String))
      (hne : w ≠ [])
      (hkeys : ∀ t ∈ w, t ∈ dag.map Prod.fst)
      (hdeps : ∀ t ∈ w, ∀ deps, (t, deps) ∈ dag → ∀ d ∈ deps, d ∈ done)
      (hnotready : ∀ t ∈ ws.head?.getD [],
        ∃ deps, (t, deps) ∈ dag ∧ ∃ d ∈ deps, d ∉ done)
      (hrest : Layered dag (done ++ w) ws) : Layered dag done (w :: ws)

theorem nodup_keys_eq {t : String} {a b : List String} :
    ∀ {dag : Dag}, (dag.map Prod.fst).Nodup → (t, a) ∈ dag → (t, b) ∈ dag →
      a = b
  | p :: rest, hnd, ha, hb => by
    simp only [List.map_cons, List.nodup_cons] at hnd
    rcases List.mem_cons.1 ha with ha1 | ha1 <;>
      rcases List.mem_cons.1 hb with hb1 | hb1
    · rw [← hb1] at ha1
      exact congrArg Prod.snd ha1
    · exfalso
      apply hnd.1
      have h1 : p.1 = t := by rw [← ha1]
      rw [h1]
      have h2 := List.mem_map_of_mem Prod.fst hb1
      simpa using h2
    · exfalso
      apply hnd.1
      have h1 : p.1 = t := by rw [← hb1]
      rw [h1]
      have h2 := List.mem_map_of_mem Prod.fst ha1
      simpa using h2
    · exact nodup_keys_eq hnd.2 ha1 hb1

theorem mapM_ok_names {ε α : Type} (f : String → Except ε α) :
    ∀ (l : Dag) (res : List (String × α)),
      l.mapM (fun td => (f td.1).map (fun r => (td.1, r))) = Except.ok res →
      res.map Prod.fst = l.map Prod.fst
  | [], res, h => by
    have h' : Except.ok ([] : List (String × α)) = Except.ok res := h
    cases h'
    rfl
  | td :: l, res, h => by
    rw [List.mapM_cons] at h
    cases hft : f td.1 with
    | error e =>
      rw [hft] at h
      have h' : (Except.error e : Except ε (List (String × α))) = Except.ok res := h
      cases h'
    | ok r =>
      rw [hft] at h
      cases hrest : l.mapM (fun td => (f td.1).map (fun r => (td.1, r))) with
      | error e =>
        rw [hrest] at h
        have h' : (Except.error e : Except ε (List (String × α))) = Except.ok res := h
        cases h'
      | ok rs =>
        rw [hrest] at h
        have h' : Except.ok ((td.1, r) :: rs) = Except.ok res := h
        cases h'
        simp only [List.map_cons]
        rw [mapM_ok_names f l rs hrest]

theorem mapM_ok_of_f_ok {ε α : Type} (f : String → Except ε α)
    (hf : ∀ t, ∃ a, f t = Except.ok a) :
    ∀ l : Dag, ∃ res, l.mapM (fun td => (f td.1).map (fun r => (td.1, r))) =
      Except.ok res
  | [] => ⟨[], rfl⟩
  | td :: l => by
    rcases hf td.1 with ⟨a, ha⟩
    rcases mapM_ok_of_f_ok f hf l with ⟨rs, hrs⟩
    refine ⟨(td.1, a) :: rs, ?_⟩
    rw [List.mapM_cons, ha, hrs]
    rfl

theorem length_filter_not_lt {α : Type} {p : α → Bool} {x : α} :
    ∀ {l : List α}, x ∈ l → p x = true →
      (l.filter (fun y => !(p y))).length < l.length := by
  intro l hx hpx
  rw [List.length_filter_lt_length_iff_exists]
  exact ⟨x, hx, by simp [hpx]⟩

theorem filter_partition_perm {α β : Type} (p : α → Bool) (g : α → β)
    (l : List α) :
    ((l.filter p).map g ++ (l.filter (fun x => !(p x))).map g).Perm (l.map g) := by
  rw [← List.map_append]
  exact (List.filter_append_perm p l).map g

theorem flatten_mem_split {t : String} :
    ∀ {ws : List (List String)}, t ∈ ws.flatten →
      ∃ pre w rest, ws = pre ++ w :: rest ∧ t ∈ w := by
  intro ws
  induction ws with
  | nil => intro h; exact absurd h (List.not_mem_nil t)
  | cons w ws ih =>
    intro h
    rw [List.flatten_cons, List.mem_append] at h
    rcases h with h1 | h1
    · exact ⟨[], w, ws, rfl, h1⟩
    · rcases ih h1 with ⟨pre, w0, rest, hsplit, hmem⟩
      exact ⟨w :: pre, w0, rest, by rw [hsplit]; rfl, hmem⟩

theorem depsSatisfied_iff (names deps : List String) :
    depsSatisfied names deps = true ↔ ∀ d ∈ deps, d ∈ names := by
  simp [depsSatisfied, List.all_eq_true]

theorem depsSatisfied_false (names deps : List String)
    (h : depsSatisfied names deps = false) : ∃ d ∈ deps, d ∉ names := by
  have : ¬ ∀ d ∈ deps, d ∈ names := by
    rw [← depsSatisfied_iff]
    simp [h]
  push_neg at this
  exact this

theorem executeDagAux_succ {ε α : Type} (f : String → Except ε α) (fuel : Nat)
    (completed : List (String × α)) (waves : List (List String))
    (remaining : Dag) :
    executeDagAux f (fuel + 1) completed waves remaining =
      (if remaining.isEmpty then Except.ok (completed, waves)
      else if (remaining.filter
          (fun td => depsSatisfied (completed.map Prod.fst) td.2)).isEmpty then
        Except.error DagError.cycle
      else
        match (remaining.filter
            (fun td => depsSatisfied (completed.map Prod.fst) td.2)).mapM
            (fun td => (f td.1).map (fun r => (td.1, r))) with
        | Except.error e => Except.error (DagError.task e)
        | Except.ok results =>
            executeDagAux f fuel (completed ++ results)
              (waves ++ [(remaining.filter
                (fun td => depsSatisfied (completed.map Prod.fst) td.2)).map
                  Prod.fst])
              (remaining.filter
                (fun td => !(depsSatisfied (completed.map Prod.fst) td.2)))) := rfl

theorem executeDagAux_ok_layered {ε α : Type} (f : String → Except ε α) (dag : Dag)
    (hnd : (dag.map Prod.fst).Nodup) :
    ∀ (fuel : Nat) (completed : List (String × α)) (waves : List (List String))
      (remaining : Dag) (out : List (String × α) × List (List String)),
      remaining.Sublist dag →
      executeDagAux f fuel completed waves remaining = Except.ok out →
      ∃ new, out.2 = waves ++ new ∧
        Layered dag (completed.map Prod.fst) new ∧
        new.flatten.Perm (remaining.map Prod.fst)
  | 0, completed, waves, remaining, out, hsub, h => by
    exact absurd h (by simp [executeDagAux])
  | fuel + 1, completed, waves, remaining, out, hsub, h => by
    rw [executeDagAux_succ] at h
    by_cases hemp : remaining.isEmpty = true
    · rw [if_pos hemp] at h
      have h' : (completed, waves) = out := Except.ok.inj h
      have hrem : remaining = [] := List.isEmpty_iff.1 hemp
      subst hrem
      refine ⟨[], ?_, Layered.nil _, by simp⟩
      rw [← h']
      exact (List.append_nil waves).symm
    · rw [if_neg hemp] at h
      by_cases hready : (remaining.filter
          (fun td => depsSatisfied (completed.map Prod.fst) td.2)).isEmpty = true
      · rw [if_pos hready] at h
        cases h
      · rw [if_neg hready] at h
        cases hmapm : (remaining.filter
            (fun td => depsSatisfied (completed.map Prod.fst) td.2)).mapM
            (fun td => (f td.1).map (fun r => (td.1, r))) with
        | error e =>
          rw [hmapm] at h
          have h' : (Except.error (DagError.task e) :
            Except (DagError ε) (List (String × α) × List (List String))) =
              Except.ok out := h
          cases h'
        | ok results =>
          rw [hmapm] at h
          have h' : executeDagAux f fuel (completed ++ results)
              (waves ++ [(remaining.filter
                (fun td => depsSatisfied (completed.map Prod.fst) td.2)).map
                  Prod.fst])
              (remaining.filter
                (fun td => !(depsSatisfied (completed.map Prod.fst) td.2))) =
              Except.ok out := h
          have hsub' : (remaining.filter
              (fun td => !(depsSatisfied (completed.map Prod.fst) td.2))).Sublist
                dag := (List.filter_sublist _).trans hsub
          rcases executeDagAux_ok_layered f dag hnd fuel (completed ++ results) _ _
              out hsub' h' with ⟨new', hout, hlay, hperm⟩
          have hnames : results.map Prod.fst =
              (remaining.filter
                (fun td => depsSatisfied (completed.map Prod.fst) td.2)).map
                Prod.fst := mapM_ok_names f _ results hmapm
          refine ⟨(remaining.filter
              (fun td => depsSatisfied (completed.map Prod.fst) td.2)).map
                Prod.fst :: new', ?_, ?_, ?_⟩
          · rw [hout, List.append_assoc]
            rfl
          · refine Layered.cons _ _ _ ?_ ?_ ?_ ?_ ?_
            · intro hnil
              rw [List.map_eq_nil_iff] at hnil
              rw [hnil] at hready
              exact hready rfl
            · intro t ht
              rcases List.mem_map.1 ht with ⟨p, hp, hpt⟩
              have hpd : p ∈ dag := hsub.subset (List.mem_filter.1 hp).1
              rw [← hpt]
              exact List.mem_map_of_mem Prod.fst hpd
            · intro t ht deps hdag d hd
              rcases List.mem_map.1 ht with ⟨p, hp, hpt⟩
              have hsat : depsSatisfied (completed.map Prod.fst) p.2 = true :=
                (List.mem_filter.1 hp).2
              have hpd : (t, p.2) ∈ dag := by
                rw [← hpt]
                exact hsub.subset (List.mem_filter.1 hp).1
              have hdeq : deps = p.2 := nodup_keys_eq hnd hdag hpd
              exact (depsSatisfied_iff _ _).1 hsat d (hdeq ▸ hd)
            · intro t ht
              rcases hnew' : new' with _ | ⟨w0, ws0⟩
              · rw [hnew'] at ht
                exact absurd ht (List.not_mem_nil t)
              · rw [hnew'] at ht
                simp only [List.head?_cons, Option.getD_some] at ht
                have htf : t ∈ new'.flatten := by
                  rw [hnew', List.flatten_cons]
                  exact List.mem_append.2 (Or.inl ht)
                have htr := hperm.subset htf
                rcases List.mem_map.1 htr with ⟨q, hq, hqt⟩
                have hqfil := List.mem_filter.1 hq
                have hqsat : depsSatisfied (completed.map Prod.fst) q.2 = false := by
                  have := hqfil.2
                  simp only [Bool.not_eq_true'] at this
                  exact this
                rcases depsSatisfied_false _ _ hqsat with ⟨d, hd, hdn⟩
                refine ⟨q.2, ?_, d, hd, hdn⟩
                rw [← hqt]
                exact hsub.subset hqfil.1
            · have : (completed ++ results).map Prod.fst =
                  completed.map Prod.fst ++ (remaining.filter
                    (fun td => depsSatisfied (completed.map Prod.fst) td.2)).map
                    Prod.fst := by
                rw [List.map_append, hnames]
              rw [← this]
              exact hlay
          · rw [List.flatten_cons]
            exact (hperm.append_left _).trans
              (filter_partition_perm _ Prod.fst remaining)

theorem exists_rank_min {α : Type} (g : α → Nat) :
    ∀ (l : List α), l ≠ [] → ∃ p ∈ l, ∀ q ∈ l, g p ≤ g q
  | [], h => absurd rfl h
  | [a], _ => ⟨a, List.mem_singleton_self a, fun q hq => by
      rw [List.mem_singleton.1 hq]⟩
  | a :: b :: l, _ => by
    rcases exists_rank_min g (b :: l) (by simp) with ⟨p, hp, hmin⟩
    by_cases hab : g a ≤ g p
    · refine ⟨a, List.mem_cons_self a _, fun q hq => ?_⟩
      rcases List.mem_cons.1 hq with h | h
      · rw [h]
      · exact le_trans hab (hmin q h)
    · refine ⟨p, List.mem_cons_of_mem a hp, fun q hq => ?_⟩
      rcases List.mem_cons.1 hq with h | h
      · rw [h]; omega
      · exact hmin q h

theorem executeDagAux_progress {ε α : Type} (f : String → Except ε α) (dag : Dag)
    (hdef : ∀ t deps, (t, deps) ∈ dag → ∀ d ∈ deps, d ∈ dag.map Prod.fst)
    (rank : String → Nat) (hrank : AcyclicRank dag rank)
    (hf : ∀ t, ∃ a, f t = Except.ok a) :
    ∀ (fuel : Nat) (completed : List (String × α)) (waves : List (List String))
      (remaining : Dag),
      remaining.Sublist dag →
      remaining.length < fuel →
      (∀ d ∈ dag.map Prod.fst,
        d ∈ completed.map Prod.fst ∨ d ∈ remaining.map Prod.fst) →
      ∃ out, executeDagAux f fuel completed waves remaining = Except.ok out
  | 0, _, _, _, _, hlt, _ => absurd hlt (Nat.not_lt_zero _)
  | fuel + 1, completed, waves, remaining, hsub, hlt, hcov => by
    rw [executeDagAux_succ]
    by_cases hemp : remaining.isEmpty = true
    · exact ⟨(completed, waves), by rw [if_pos hemp]⟩
    · rw [if_neg hemp]
      have hne : remaining ≠ [] := by
        intro h0
        rw [h0] at hemp
        exact hemp rfl
      rcases exists_rank_min (fun p => rank p.1) remaining hne with ⟨p, hp, hmin⟩
      have hpdag : (p.1, p.2) ∈ dag := hsub.subset hp
      have hpsat : depsSatisfied (completed.map Prod.fst) p.2 = true := by
        rw [depsSatisfied_iff]
        intro d hd
        have hdk : d ∈ dag.map Prod.fst := hdef p.1 p.2 hpdag d hd
        rcases hcov d hdk with hc | hc
        · exact hc
        · exfalso
          rcases List.mem_map.1 hc with ⟨q, hq, hqd⟩
          have h1 : rank p.1 ≤ rank q.1 := hmin q hq
          have h2 : rank d < rank p.1 := hrank p.1 p.2 hpdag d hd
          rw [hqd] at h1
          omega
      have hpready : p ∈ remaining.filter
          (fun td => depsSatisfied (completed.map Prod.fst) td.2) :=
        List.mem_filter.2 ⟨hp, hpsat⟩
      have hready : ¬ (remaining.filter
          (fun td => depsSatisfied (completed.map Prod.fst) td.2)).isEmpty = true := by
        rw [List.isEmpty_iff]
        intro h0
        rw [h0] at hpready
        exact absurd hpready (List.not_mem_nil p)
      rw [if_neg hready]
      rcases mapM_ok_of_f_ok f hf (remaining.filter
          (fun td => depsSatisfied (completed.map Prod.fst) td.2)) with
        ⟨results, hres⟩
      rw [hres]
      have hlt' : (remaining.filter
          (fun td => !(depsSatisfied (completed.map Prod.fst) td.2))).length <
          fuel := by
        have hstrict : (remaining.filter
            (fun td => !(depsSatisfied (completed.map Prod.fst) td.2))).length <
            remaining.length :=
          @length_filter_not_lt _
            (fun td => depsSatisfied (completed.map Prod.fst) td.2) p remaining
            hp hpsat
        omega
      have hcov' : ∀ d ∈ dag.map Prod.fst,
          d ∈ (completed ++ results).map Prod.fst ∨
            d ∈ (remaining.filter
              (fun td => !(depsSatisfied (completed.map Prod.fst) td.2))).map
                Prod.fst := by
        intro d hd
        rcases hcov d hd with hc | hc
        · left
          rw [List.map_append]
          exact List.mem_append.2 (Or.inl hc)
        · rcases List.mem_map.1 hc with ⟨q, hq, hqd⟩
          by_cases hqsat : depsSatisfied (completed.map Prod.fst) q.2 = true
          · left
            rw [List.map_append]
            refine List.mem_append.2 (Or.inr ?_)
            rw [mapM_ok_names f _ results hres]
            rw [← hqd]
            exact List.mem_map_of_mem Prod.fst (List.mem_filter.2 ⟨hq, hqsat⟩)
          · right
            rw [← hqd]
            refine List.mem_map_of_mem Prod.fst (List.mem_filter.2 ⟨hq, ?_⟩)
            simp [eq_false_of_ne_true hqsat]
      exact executeDagAux_progress f dag hdef rank hrank hf fuel
        (completed ++ results) _ _ ((List.filter_sublist _).trans hsub) hlt' hcov'

theorem executeDagAux_ok_or_cycle {ε α : Type} (f : String → Except ε α)
    (hf : ∀ t, ∃ a, f t = Except.ok a) :
    ∀ (fuel : Nat) (completed : List (String × α)) (waves : List (List String))
      (remaining : Dag),
      remaining.length < fuel →
      (∃ out, executeDagAux f fuel completed waves remaining = Except.ok out) ∨
        executeDagAux f fuel completed waves remaining =
          Except.error DagError.cycle
  | 0, _, _, _, hlt => absurd hlt (Nat.not_lt_zero _)
  | fuel + 1, completed, waves, remaining, hlt => by
    rw [executeDagAux_succ]
    by_cases hemp : remaining.isEmpty = true
    · exact Or.inl ⟨(completed, waves), by rw [if_pos hemp]⟩
    · rw [if_neg hemp]
      by_cases hready : (remaining.filter
          (fun td => depsSatisfied (completed.map Prod.fst) td.2)).isEmpty = true
      · right
        rw [if_pos hready]
      · rw [if_neg hready]
        rcases mapM_ok_of_f_ok f hf (remaining.filter
            (fun td => depsSatisfied (completed.map Prod.fst) td.2)) with
          ⟨results, hres⟩
        rw [hres]
        have hne : remaining.filter
            (fun td => depsSatisfied (completed.map Prod.fst) td.2) ≠ [] := by
          intro h0
          rw [h0] at hready
          exact hready rfl
        rcases List.exists_mem_of_ne_nil _ hne with ⟨p, hp⟩
        have hp' := List.mem_filter.1 hp
        have hlt' : (remaining.filter
            (fun td => !(depsSatisfied (completed.map Prod.fst) td.2))).length <
            fuel := by
          have hstrict : (remaining.filter
              (fun td => !(depsSatisfied (completed.map Prod.fst) td.2))).length <
              remaining.length :=
            @length_filter_not_lt _
              (fun td => depsSatisfied (completed.map Prod.fst) td.2) p remaining
              hp'.1 hp'.2
          omega
        exact executeDagAux_ok_or_cycle f hf fuel (completed ++ results) _ _ hlt'

theorem Layered.deps_earlier {dag : Dag} {done : List String}
    {ws : List (List String)} (hlay : Layered dag done ws) :
    ∀ pre w rest, ws = pre ++ w :: rest →
      ∀ t ∈ w, ∀ deps, (t, deps) ∈ dag → ∀ d ∈ deps,
        d ∈ done ++ pre.flatten := by
  induction hlay with
  | nil done =>
    intro pre w rest he
    exact absurd he (by simp)
  | cons done w0 ws0 hne hkeys hdeps hnr hrest ih =>
    intro pre w rest he t ht deps hdag d hd
    cases pre with
    | nil =>
      rw [List.nil_append] at he
      injection he with h1 h2
      subst h1
      have := hdeps t ht deps hdag d hd
      simpa using this
    | cons p0 pre' =>
      rw [List.cons_append] at he
      injection he with h1 h2
      subst h1
      have := ih pre' w rest h2 t ht deps hdag d hd
      rw [List.flatten_cons, ← List.append_assoc]
      exact this

theorem chain_tail_keys {dag : Dag} :
    ∀ {x : String} {l : List String}, Chain dag (x :: l) →
      ∀ e ∈ l, e ∈ dag.map Prod.fst
  | _, [], _, e, he => absurd he (List.not_mem_nil e)
  | x, y :: l, hc, e, he => by
    cases hc with
    | cons _ _ _ hdep hc2 =>
      rcases List.mem_cons.1 he with he1 | he1
      · subst he1
        rcases hdep with ⟨deps, hdag, _⟩
        exact List.mem_map_of_mem Prod.fst hdag
      · exact chain_tail_keys hc2 e he1

theorem chain_all_keys {dag : Dag}
    (hdef : ∀ t deps, (t, deps) ∈ dag → ∀ d ∈ deps, d ∈ dag.map Prod.fst) :
    ∀ {c : List String}, Chain dag c → ∀ e ∈ c, e ∈ dag.map Prod.fst := by
  intro c hc e he
  cases hc with
  | single t h =>
    rw [List.mem_singleton.1 he]
    exact h
  | cons x y l hdep hc2 =>
    rcases hdep with ⟨deps, hdag, hx⟩
    rcases List.mem_cons.1 he with he1 | he1
    · subst he1
      exact hdef y deps hdag e hx
    · rcases List.mem_cons.1 he1 with he2 | he2
      · subst he2
        exact List.mem_map_of_mem Prod.fst hdag
      · exact chain_tail_keys hc2 e he2

theorem chain_length_le {dag : Dag} :
    ∀ (ws : List (List String)) (done : List String),
      Layered dag done ws →
      (∀ t ∈ done, ∀ deps, (t, deps) ∈ dag → ∀ d ∈ deps, d ∈ done) →
      ∀ (x : String) (l : List String), Chain dag (x :: l) →
        (∀ e ∈ x :: l, e ∈ done ++ ws.flatten) →
        x ∉ done →
        (x :: l).length ≤ ws.length
  | [], done, _, _, x, l, _, hmem, hx => by
    exfalso
    apply hx
    have := hmem x (List.mem_cons_self x l)
    simpa using this
  | w :: ws', done, hlay, hclosed, x, l, hc, hmem, hx => by
    cases hlay with
    | cons _ _ _ hne hkeys hdeps hnr hrest =>
      cases l with
      | nil => simp
      | cons y l' =>
        cases hc with
        | cons _ _ _ hdep hc2 =>
          rcases hdep with ⟨deps, hdag, hxdep⟩
          have hynd : y ∉ done := by
            intro hy
            exact hx (hclosed y hy deps hdag x hxdep)
          have hynw : y ∉ w := by
            intro hy
            exact hx (hdeps y hy deps hdag x hxdep)
          have hclosed' : ∀ t ∈ done ++ w, ∀ deps, (t, deps) ∈ dag →
              ∀ d ∈ deps, d ∈ done ++ w := by
            intro t ht deps0 hdag0 d hd0
            rcases List.mem_append.1 ht with ht1 | ht1
            · exact List.mem_append.2 (Or.inl (hclosed t ht1 deps0 hdag0 d hd0))
            · exact List.mem_append.2 (Or.inl (hdeps t ht1 deps0 hdag0 d hd0))
          have hmem' : ∀ e ∈ y :: l', e ∈ (done ++ w) ++ ws'.flatten := by
            intro e he
            have := hmem e (List.mem_cons_of_mem x he)
            rw [List.append_assoc, ← List.flatten_cons]
            exact this
          have hynd' : y ∉ done ++ w := by
            intro hy
            rcases List.mem_append.1 hy with h1 | h1
            · exact hynd h1
            · exact hynw h1
          have := chain_length_le ws' (done ++ w) hrest hclosed' y l' hc2 hmem' hynd'
          simp only [List.length_cons] at this ⊢
          omega

theorem exists_chain_of_layered {dag : Dag} :
    ∀ (ws : List (List String)) (done : List String),
      Layered dag done ws → ws ≠ [] →
      ∃ x l, Chain dag (x :: l) ∧ (x :: l).length = ws.length ∧
        x ∈ ws.head?.getD []
  | [], _, _, hne => absurd rfl hne
  | [w], done, hlay, _ => by
    cases hlay with
    | cons _ _ _ hne hkeys hdeps hnr hrest =>
      rcases List.exists_mem_of_ne_nil w hne with ⟨t, ht⟩
      exact ⟨t, [], Chain.single t (hkeys t ht), rfl, ht⟩
  | w :: w' :: ws'', done, hlay, _ => by
    cases hlay with
    | cons _ _ _ hne hkeys hdeps hnr hrest =>
      rcases exists_chain_of_layered (w' :: ws'') (done ++ w) hrest (by simp) with
        ⟨y, l, hcy, hlen, hyh⟩
      simp only [List.head?_cons, Option.getD_some] at hyh
      rcases hnr y (by simpa using hyh) with ⟨deps, hdag, d, hd, hdn⟩
      have hdw : d ∈ w := by
        cases hrest with
        | cons _ _ _ _ _ hdeps2 _ _ =>
          have := hdeps2 y hyh deps hdag d hd
          rcases List.mem_append.1 this with h1 | h1
          · exact absurd h1 hdn
          · exact h1
      refine ⟨d, y :: l, Chain.cons d y l ⟨deps, hdag, hd⟩ hcy, ?_, by simpa using hdw⟩
      simp only [List.length_cons] at hlen ⊢
      omega

theorem chain_glue {dag : Dag} :
    ∀ {c1 : List String} {t : String} {c2 : List String},
      Chain dag c1 → c1.getLast? = some t → Chain dag (t :: c2) →
      Chain dag (c1 ++ c2)
  | [u], t, c2, _, hlast, ht2 => by
    have : u = t := by simpa using hlast
    subst this
    exact ht2
  | x :: y :: l, t, c2, hc, hlast, ht2 => by
    cases hc with
    | cons _ _ _ hdep hc2 =>
      rw [List.getLast?_cons_cons] at hlast
      have := chain_glue hc2 hlast ht2
      exact Chain.cons x y (l ++ c2) hdep this
  | [], _, _, hc, _, _ => by cases hc

theorem cycle_pump {dag : Dag} {t : String} {l : List String}
    (hcyc : Chain dag (t :: l ++ [t])) :
    ∀ n : Nat, ∃ c, Chain dag c ∧ c.getLast? = some t ∧ n ≤ c.length ∧
      c.head? = some t
  | 0 => ⟨t :: l ++ [t], hcyc, by
      show ((t :: l) ++ [t]).getLast? = some t
      exact List.getLast?_concat _, by simp, rfl⟩
  | n + 1 => by
    rcases cycle_pump hcyc n with ⟨c, hc, hlast, hlen, hhead⟩
    refine ⟨c ++ (l ++ [t]), chain_glue hc hlast hcyc, ?_, ?_, ?_⟩
    · rw [← List.append_assoc]
      exact List.getLast?_concat _
    · simp only [List.length_append, List.length_cons]
      omega
    · cases c with
      | nil => cases hhead
      | cons a c' =>
        simp only [List.head?_cons] at hhead ⊢
        exact hhead

theorem layered_no_cycle {dag : Dag} {ws : List (List String)}
    (hlay : Layered dag [] ws) (hperm : ws.flatten.Perm (dag.map Prod.fst))
    (hcyc : HasCycle dag) : False := by
  rcases hcyc with ⟨t, l, hc⟩
  rcases cycle_pump hc (ws.length + 1) with ⟨c, hchain, _, hlen, hhead⟩
  cases c with
  | nil => cases hhead
  | cons x rest =>
    have hx : x = t := by simpa using hhead
    have hkeysc : ∀ e ∈ x :: rest, e ∈ dag.map Prod.fst := by
      intro e he
      rcases List.mem_cons.1 he with he1 | he1
      · subst he1
        rw [hx]
        exact chain_tail_keys hc t (by simp)
      · exact chain_tail_keys hchain e he1
    have hmem : ∀ e ∈ x :: rest, e ∈ ([] : List String) ++ ws.flatten := by
      intro e he
      rw [List.nil_append]
      exact hperm.symm.subset (hkeysc e he)
    have hub := chain_length_le ws [] hlay
      (fun t' ht' => absurd ht' (List.not_mem_nil t')) x rest hchain hmem
      (List.not_mem_nil x)
    simp only [List.length_cons] at hub hlen
    omega

theorem layered_no_undefined {dag : Dag} {ws : List (List String)}
    (hlay : Layered dag [] ws) (hperm : ws.flatten.Perm (dag.map Prod.fst))
    (hu : HasUndefinedDep dag) : False := by
  rcases hu with ⟨t, deps, hdag, d, hd, hdn⟩
  have ht : t ∈ ws.flatten := hperm.symm.subset (List.mem_map_of_mem Prod.fst hdag)
  rcases flatten_mem_split ht with ⟨pre, w, rest, hsplit, hw⟩
  have hdpre := Layered.deps_earlier hlay pre w rest hsplit t hw deps hdag d hd
  rw [List.nil_append] at hdpre
  apply hdn
  apply hperm.subset
  rw [hsplit, List.flatten_append]
  exact List.mem_append.2 (Or.inl hdpre)

/-- The spec's example dag `{A: [], B: [], C: [A, B], D: [C]}`. -/
def exampleDag : Dag := [("A", []), ("B", []), ("C", ["A", "B"]), ("D", ["C"])]

/-- A rank witnessing `exampleDag`'s acyclicity. -/
def exampleRank (t : String) : Nat :=
  if t == "D" then 2 else if t == "C" then 1 else 0

theorem exampleDag_defined : ∀ t deps, (t, deps) ∈ exampleDag →
    ∀ d ∈ deps, d ∈ exampleDag.map Prod.fst := by
  intro t deps hmem
  simp only [exampleDag, List.mem_cons, List.not_mem_nil, or_false] at hmem
  rcases hmem with h | h | h | h <;>
    (injection h with h1 h2; subst h1; subst h2; decide)

theorem exampleRank_acyclic : AcyclicRank exampleDag exampleRank := by
  intro t deps hmem
  simp only [exampleDag, List.mem_cons, List.not_mem_nil, or_false] at hmem
  rcases hmem with h | h | h | h <;>
    (injection h with h1 h2; subst h1; subst h2; decide)

/-- C1: on an acyclic dag whose dependencies are all defined, with a
callback that does not fail, `execute_dag` succeeds; the executed waves
exactly cover the tasks; each wave's tasks have all dependencies
recorded in earlier waves (so a callback runs only after its
dependencies' results are in the completed set); and the number of
waves — the increase of `total_batches` — equals the dag's depth: every
dependency chain has at most that many tasks, and some chain has
exactly that many.  On the example dag `{A: [], B: [], C: [A, B],
D: [C]}` the waves are `[A, B], [C], [D]` — exactly 3. -/
theorem C1_waves_equal_depth {ε α : Type} (f : String → Except ε α) (dag : Dag)
    (hnd : (dag.map Prod.fst).Nodup)
    (hdef : ∀ t deps, (t, deps) ∈ dag → ∀ d ∈ deps, d ∈ dag.map Prod.fst)
    (rank : String → Nat) (hrank : AcyclicRank dag rank)
    (hf : ∀ t, ∃ a, f t = Except.ok a) :
    (∃ out, execute_dag f dag = Except.ok out ∧
      out.2.flatten.Perm (dag.map Prod.fst) ∧
      Layered dag [] out.2 ∧
      (∀ pre w rest, out.2 = pre ++ w :: rest →
        ∀ t ∈ w, ∀ deps, (t, deps) ∈ dag → ∀ d ∈ deps, d ∈ pre.flatten) ∧
      (∀ x l, Chain dag (x :: l) → (x :: l).length ≤ out.2.length) ∧
      (dag ≠ [] → ∃ x l, Chain dag (x :: l) ∧
        (x :: l).length = out.2.length)) ∧
    ((execute_dag (fun t => (Except.ok t : Except Unit String)) exampleDag).map
      Prod.snd).toOption = some [["A", "B"], ["C"], ["D"]] := by
  refine ⟨?_, by decide⟩
  rcases executeDagAux_progress f dag hdef rank hrank hf (dag.length + 1) [] []
      dag (List.Sublist.refl dag) (Nat.lt_succ_self _)
      (fun d hd => Or.inr hd) with ⟨out, hout⟩
  rcases executeDagAux_ok_layered f dag hnd (dag.length + 1) [] [] dag out
      (List.Sublist.refl dag) hout with ⟨new, hnew, hlay, hperm⟩
  rw [List.nil_append] at hnew
  have hlay' : Layered dag [] out.2 := by
    rw [hnew]
    exact hlay
  have hperm' : out.2.flatten.Perm (dag.map Prod.fst) := by
    rw [hnew]
    exact hperm
  refine ⟨out, hout, hperm', hlay', ?_, ?_, ?_⟩
  · intro pre w rest hsplit t ht deps hdag d hd
    have := Layered.deps_earlier hlay' pre w rest hsplit t ht deps hdag d hd
    simpa using this
  · intro x l hc
    have hmem : ∀ e ∈ x :: l, e ∈ ([] : List String) ++ out.2.flatten := by
      intro e he
      rw [List.nil_append]
      exact hperm'.symm.subset (chain_all_keys hdef hc e he)
    exact chain_length_le out.2 [] hlay'
      (fun t' ht' => absurd ht' (List.not_mem_nil t')) x l hc hmem
      (List.not_mem_nil x)
  · intro hne
    have hwsne : out.2 ≠ [] := by
      intro h0
      rw [h0] at hperm'
      have hkeys : dag.map Prod.fst = [] := by
        have := hperm'.symm
        simpa using this.eq_nil
      rw [List.map_eq_nil_iff] at hkeys
      exact hne hkeys
    rcases exists_chain_of_layered out.2 [] hlay' hwsne with ⟨x, l, hc, hlen, _⟩
    exact ⟨x, l, hc, hlen⟩

/-- Witness for C1 at the example dag with a constant-latency callback
and an explicit rank function. -/
theorem C1_witness :
    ((exampleDag.map Prod.fst).Nodup ∧ AcyclicRank exampleDag exampleRank) ∧
    (∃ out, execute_dag (fun t => (Except.ok t : Except Unit String))
        exampleDag = Except.ok out ∧
      out.2.flatten.Perm (exampleDag.map Prod.fst) ∧
      Layered exampleDag [] out.2 ∧
      (∀ pre w rest, out.2 = pre ++ w :: rest →
        ∀ t ∈ w, ∀ deps, (t, deps) ∈ exampleDag → ∀ d ∈ deps,
          d ∈ pre.flatten) ∧
      (∀ x l, Chain exampleDag (x :: l) → (x :: l).length ≤ out.2.length) ∧
      (exampleDag ≠ [] → ∃ x l, Chain exampleDag (x :: l) ∧
        (x :: l).length = out.2.length)) :=
  ⟨⟨by decide, exampleRank_acyclic⟩,
    (C1_waves_equal_depth (fun t => (Except.ok t : Except Unit String))
      exampleDag (by decide) exampleDag_defined exampleRank
      exampleRank_acyclic (fun t => ⟨t, rfl⟩)).1⟩

/-- C2: on a dag with a dependency cycle, or a dependency name that is
never defined as a task, `execute_dag` terminates (it does not loop
forever) and raises the structural `RuntimeError` — modelled as the
distinguished `DagError.cycle`, distinct by construction from a
task-callback failure (`DagError.task`) — rather than returning any
partial result mapping. -/
theorem C2_cycle_fatal {ε α : Type} (f : String → Except ε α) (dag : Dag)
    (hnd : (dag.map Prod.fst).Nodup)
    (hf : ∀ t, ∃ a, f t = Except.ok a)
    (hbad : HasCycle dag ∨ HasUndefinedDep dag) :
    execute_dag f dag = Except.error DagError.cycle := by
  rcases executeDagAux_ok_or_cycle f hf (dag.length + 1) [] [] dag
      (Nat.lt_succ_self _) with ⟨out, hout⟩ | hcy
  · exfalso
    rcases executeDagAux_ok_layered f dag hnd (dag.length + 1) [] [] dag out
        (List.Sublist.refl dag) hout with ⟨new, _, hlay, hperm⟩
    rcases hbad with hc | hu
    · exact layered_no_cycle hlay hperm hc
    · exact layered_no_undefined hlay hperm hu
  · exact hcy

/-- Witness for C2 at the spec's example cycle `{A: [B], B: [A]}`. -/
theorem C2_witness :
    (([("A", ["B"]), ("B", ["A"])] : Dag).map Prod.fst).Nodup ∧
      HasCycle [("A", ["B"]), ("B", ["A"])] ∧
      execute_dag (fun t => (Except.ok t : Except Unit String))
        [("A", ["B"]), ("B", ["A"])] = Except.error DagError.cycle := by
  have hcyc : HasCycle [("A", ["B"]), ("B", ["A"])] :=
    ⟨"A", ["B"], Chain.cons "A" "B" ["A"] ⟨["A"], by decide, by decide⟩
      (Chain.cons "B" "A" [] ⟨["B"], by decide, by decide⟩
        (Chain.single "A" (by decide)))⟩
  exact ⟨by decide, hcyc,
    C2_cycle_fatal (fun t => (Except.ok t : Except Unit String))
      [("A", ["B"]), ("B", ["A"])] (by decide) (fun t => ⟨t, rfl⟩)
      (Or.inl hcyc)⟩

end MCPOpt
